import Mathlib

/-!
Verification of the aruba-central-api-database ingestion utilities.

Shallow embedding of:
* `src/utils/validators.ts` — the input-validation rule set
  (validateHttpMethod, validateUrl, validateStringLength, validateNumericRange,
  validateDatabaseId, validateEmail, validateJson, validateSearchQuery,
  validatePaginationParams, validateAuthConfig, validateApiRequest,
  combineValidations);
* `src/utils/error-handler.ts` — ErrorHandler (createErrorResponse,
  handleError, wrapAsync, sanitizeErrorMessage, sanitizeErrorDetails);
* the ingestion pipeline (parser / variable resolver / batch importer), whose
  implementation is not among the repository files and is therefore modelled
  from the specification where noted.

JavaScript dynamic values are modelled by `JSVal`; the host regular-expression
replace calls of `sanitizeErrorMessage` are modelled character-for-character
on `List Char`; the host `new URL` and `JSON.parse` facilities are passed as
boolean oracles.
-/

namespace ArubaDB

/-! ## JavaScript value model -/

/-- A JavaScript runtime value, as far as the embedded functions inspect one:
`null`, `undefined`, strings, (finite) numbers, booleans and plain objects
given as ordered field lists. -/
inductive JSVal where
  | null : JSVal
  | undefined : JSVal
  | str : String → JSVal
  | num : Rat → JSVal
  | bool : Bool → JSVal
  | obj : List (String × JSVal) → JSVal

/-- JavaScript truthiness: `!v` in the source is `truthy v = false`. -/
def truthy : JSVal → Bool
  | .null => false
  | .undefined => false
  | .str s => !(s = "")
  | .num n => !(n = 0)
  | .bool b => b
  | .obj _ => true

/-- The JavaScript `typeof` operator (`typeof null` is "object"). -/
def jsTypeof : JSVal → String
  | .null => "object"
  | .undefined => "undefined"
  | .str _ => "string"
  | .num _ => "number"
  | .bool _ => "boolean"
  | .obj _ => "object"

/-- Property access on an object's field list; an absent key reads as
`undefined`, as in JavaScript. -/
def getField (fields : List (String × JSVal)) (key : String) : JSVal :=
  match fields.find? (fun p => p.1 = key) with
  | some p => p.2
  | none => JSVal.undefined

/-! ## Character classes and case-insensitive matching

The `replace(/…/gi)` calls of `sanitizeErrorMessage` are embedded as explicit
scanners over `List Char`. -/

/-- The JavaScript regular-expression class `\s` (whitespace). -/
def jsWS (c : Char) : Bool :=
  let n := c.toNat
  n = 32 || n = 9 || n = 10 || n = 13 || n = 11 || n = 12 || n = 0xa0 ||
  n = 0x1680 || (0x2000 ≤ n && n ≤ 0x200a) || n = 0x2028 || n = 0x2029 ||
  n = 0x202f || n = 0x205f || n = 0x3000 || n = 0xfeff

/-- The class `\w` (word characters) of the pattern `on\w+\s*=`. -/
def jsWordChar (c : Char) : Bool :=
  let n := c.toNat
  (48 ≤ n && n ≤ 57) || (65 ≤ n && n ≤ 90) || (97 ≤ n && n ≤ 122) || n = 95

/-- `c` is an ASCII lowercase letter (the keywords consist of these). -/
def lowerAZ (c : Char) : Bool := 97 ≤ c.toNat && c.toNat ≤ 122

/-- ASCII case folding, the canonicalization the `i` flag applies to the
letters appearing in the sanitization patterns. -/
def lc (c : Char) : Char :=
  if 65 ≤ c.toNat ∧ c.toNat ≤ 90 then Char.ofNat (c.toNat + 32) else c

/-- Case-insensitively match `kw` against the front of `s`; on success return
what remains of `s`. -/
def matchCI : List Char → List Char → Option (List Char)
  | [], s => some s
  | _ :: _, [] => none
  | k :: ks, c :: cs => if lc c = lc k then matchCI ks cs else none

/-- The separator class `[=:]` of the sanitization patterns. -/
def isSep (c : Char) : Bool := c.toNat = 61 || c.toNat = 58

/-- Match the pattern `kw[=:]\s*[^\s]+` at the front of `s` (keyword,
separator, greedy whitespace, greedy non-empty non-whitespace value).
On success return the value and the remainder of `s` after the match. -/
def matchPat (kw : List Char) (s : List Char) : Option (List Char × List Char) :=
  match matchCI kw s with
  | none => none
  | some s1 =>
    match s1 with
    | [] => none
    | c :: s2 =>
      if isSep c then
        let s3 := s2.dropWhile jsWS
        let v := s3.takeWhile (fun x => !(jsWS x))
        if v = [] then none else some (v, s3.dropWhile (fun x => !(jsWS x)))
      else none

/-- The replacement text `***`. -/
def stars : List Char := ['*', '*', '*']

theorem matchCI_length_le {kw s s1 : List Char} (h : matchCI kw s = some s1) :
    s1.length + kw.length = s.length := by
  induction kw generalizing s s1 with
  | nil => simp [matchCI] at h; simp [h]
  | cons k ks ih =>
    match s with
    | [] => simp [matchCI] at h
    | c :: cs =>
      simp only [matchCI] at h
      split at h
      · have := ih h
        simp only [List.length_cons]
        omega
      · exact absurd h (by simp)

theorem matchPat_rest_lt {kw v rest : List Char} {s : List Char}
    (h : matchPat kw s = some (v, rest)) : rest.length < s.length := by
  unfold matchPat at h
  match hci : matchCI kw s with
  | none => rw [hci] at h; exact absurd h (by simp)
  | some s1 =>
    rw [hci] at h
    have hlen := matchCI_length_le hci
    match s1 with
    | [] => exact absurd h (by simp)
    | c :: s2 =>
      simp only at h
      split at h
      · split at h
        · exact absurd h (by simp)
        · simp only [Option.some.injEq, Prod.mk.injEq] at h
          have h2 : rest.length ≤ (s2.dropWhile jsWS).length := by
            rw [← h.2]
            exact (List.dropWhile_sublist _).length_le
          have h3 : (s2.dropWhile jsWS).length ≤ s2.length :=
            (List.dropWhile_sublist jsWS).length_le
          simp only [List.length_cons] at hlen
          omega
      · exact absurd h (by simp)

/-- One `replace(/kw[=:]\s*[^\s]+/gi, 'kw=***')` pass: scan left to right,
replacing each non-overlapping match with the literal keyword, `=` and `***`,
and continuing after the match, as the JavaScript global replace does.
Every step consumes at least one character of the scanned string
(`matchPat_rest_lt`), so the structural fuel the wrapper `replAll` passes —
the string's length — never runs out; the keyword is passed as head and tail
so that it is never empty. -/
def replAllF (k : Char) (ks : List Char) : Nat → List Char → List Char
  | _, [] => []
  | 0, s => s
  | fuel + 1, c :: cs =>
    match matchPat (k :: ks) (c :: cs) with
    | some (_, rest) => k :: ks ++ '=' :: stars ++ replAllF k ks fuel rest
    | none => c :: replAllF k ks fuel cs

/-- The global replace pass, fuelled by the string's own length. -/
def replAll (k : Char) (ks : List Char) (s : List Char) : List Char :=
  replAllF k ks s.length s

/-- `ErrorHandler.sanitizeErrorMessage`: the four global replaces, in source
order (password, token, key, secret). -/
def sanitizeErrorMessage (message : String) : String :=
  let m1 := replAll 'p' "assword".toList message.toList
  let m2 := replAll 't' "oken".toList m1
  let m3 := replAll 'k' "ey".toList m2
  let m4 := replAll 's' "ecret".toList m3
  String.mk m4

/-- The `Object.entries` loop of `sanitizeErrorDetails`: string values are
sanitized, object-typed values are recursed into (`sanitizeErrorDetails` on
`null` returns `null` — falsy — and on an object, which is always truthy,
walks its entries), anything else is copied. -/
def sanitizeEntries : List (String × JSVal) → List (String × JSVal)
  | [] => []
  | (key, .str s) :: rest => (key, .str (sanitizeErrorMessage s)) :: sanitizeEntries rest
  | (key, .null) :: rest => (key, .null) :: sanitizeEntries rest
  | (key, .obj f) :: rest => (key, .obj (sanitizeEntries f)) :: sanitizeEntries rest
  | (key, .undefined) :: rest => (key, .undefined) :: sanitizeEntries rest
  | (key, .num n) :: rest => (key, .num n) :: sanitizeEntries rest
  | (key, .bool b) :: rest => (key, .bool b) :: sanitizeEntries rest

/-- `ErrorHandler.sanitizeErrorDetails`: falsy details are returned as given;
a string is sanitized; an object's fields are walked by `sanitizeEntries`. -/
def sanitizeErrorDetails : JSVal → JSVal
  | .null => .null
  | .undefined => .undefined
  | .str s => if s = "" then .str s else .str (sanitizeErrorMessage s)
  | .num n => .num n
  | .bool b => .bool b
  | .obj fields => .obj (sanitizeEntries fields)

/-! ### Sanitization specification predicates

A string is clean for a keyword when every occurrence of the pattern
`kw[=:]\s*[^\s]+` in it — at any position, with the greedy semantics of the
replace patterns — carries the value `***`. -/

/-- The head of the list, if any, is whitespace: what is left after the
greedy `[^\s]+` value of a match. -/
def headWS : List Char → Prop
  | [] => True
  | h :: _ => jsWS h = true

/-- No match of `kw`'s pattern at the front of `t` has a value other than
`***`. -/
def SafeAt (kw : List Char) (t : List Char) : Prop :=
  ∀ v r, matchPat kw t = some (v, r) → v = stars

/-- Every position of `t` is safe for `kw`: any occurrence of the secret
pattern has had its value replaced by `***`. -/
def CleanL (kw : List Char) (t : List Char) : Prop :=
  ∀ i : Nat, SafeAt kw (t.drop i)

/-- A message is clean for all four sanitized keywords. -/
def MessageClean (s : String) : Prop :=
  CleanL "password".toList s.toList ∧ CleanL "token".toList s.toList ∧
  CleanL "key".toList s.toList ∧ CleanL "secret".toList s.toList

/-- `MessageClean` over every string field of an object's entries,
recursively (see `DetailsClean`). -/
def EntriesClean : List (String × JSVal) → Prop
  | [] => True
  | (_, .str s) :: rest => MessageClean s ∧ EntriesClean rest
  | (_, .obj f) :: rest => EntriesClean f ∧ EntriesClean rest
  | (_, .null) :: rest => EntriesClean rest
  | (_, .undefined) :: rest => EntriesClean rest
  | (_, .num _) :: rest => EntriesClean rest
  | (_, .bool _) :: rest => EntriesClean rest

/-- Every string field of a details value, recursively, is clean. -/
def DetailsClean : JSVal → Prop
  | .str s => MessageClean s
  | .obj fields => EntriesClean fields
  | _ => True

/-! ## Validators (`src/utils/validators.ts`)

The TypeScript signatures type most inputs as `string`; for those the
`typeof x !== 'string'` guards are unreachable and are not carried over.
Inputs typed `any` (auth config, headers, body) are modelled as `JSVal`,
optional parameters as `Option`. Numbers are modelled as integers (the
fractional and non-finite doubles play no role in any claim and the
`Number.isFinite` guard has no inhabitant here). The host `new URL`
constructor and `JSON.parse` are passed as boolean success oracles. -/

/-- The validation result interface. -/
structure ValidationResult where
  isValid : Bool
  errors : List String
deriving DecidableEq

/-- The common `return { isValid: errors.length === 0, errors }`. -/
def mkResult (errors : List String) : ValidationResult :=
  { isValid := errors.length == 0, errors := errors }

/-- The method whitelist of `validateHttpMethod`. -/
def validMethods : List String :=
  ["GET", "POST", "PUT", "DELETE", "PATCH", "HEAD", "OPTIONS"]

/-- JavaScript `toUpperCase` on the ASCII strings involved. -/
def jsToUpper (s : String) : String := String.mk (s.toList.map Char.toUpper)

/-- JavaScript `startsWith`. -/
def jsStartsWith (s pre : String) : Bool := pre.toList.isPrefixOf s.toList

/-- `validateHttpMethod`. -/
def validateHttpMethod (method : String) : ValidationResult :=
  let errors :=
    if method = "" then ["HTTP method is required"]
    else if !(validMethods.contains (jsToUpper method)) then
      ["HTTP method must be one of: " ++ String.intercalate ", " validMethods]
    else []
  mkResult errors

/-- `validateUrl`; `canParse` is the host `new URL` constructor's success. -/
def validateUrl (canParse : String → Bool) (url : String) : ValidationResult :=
  let errors :=
    if url = "" then ["URL is required"]
    else if canParse url then
      (if !(jsStartsWith url "https://") then ["URL must use HTTPS protocol"] else []) ++
      (if url.length > 2000 then ["URL is too long (max 2000 characters)"] else [])
    else ["URL format is invalid"]
  mkResult errors

/-- `validateStringLength` (defaults 1 and 1000 supplied at call sites). -/
def validateStringLength (value : String) (field : String)
    (minLength : Int) (maxLength : Int) : ValidationResult :=
  let errors :=
    (if (value.length : Int) < minLength then
      [field ++ " must be at least " ++ toString minLength ++ " characters long"]
    else []) ++
    (if (value.length : Int) > maxLength then
      [field ++ " must not exceed " ++ toString maxLength ++ " characters"]
    else [])
  mkResult errors

/-- `validateNumericRange` (defaults 0 and `Number.MAX_SAFE_INTEGER` supplied
at call sites). -/
def validateNumericRange (value : Int) (field : String)
    (min : Int) (max : Int) : ValidationResult :=
  let errors :=
    (if value < min then [field ++ " must be at least " ++ toString min] else []) ++
    (if value > max then [field ++ " must not exceed " ++ toString max] else [])
  mkResult errors

/-- A hexadecimal digit, as the class `[0-9a-f]` with the `i` flag reads. -/
def hexDigit (c : Char) : Bool :=
  let n := c.toNat
  (48 ≤ n && n ≤ 57) || (97 ≤ n && n ≤ 102) || (65 ≤ n && n ≤ 70)

/-- The UUID test `/^[0-9a-f]{8}-[0-9a-f]{4}-[1-5][0-9a-f]{3}-[89ab][0-9a-f]{3}-[0-9a-f]{12}$/i`. -/
def isUuidFormat (s : String) : Bool :=
  match s.splitOn "-" with
  | [a, b, c, d, e] =>
    a.length == 8 && a.toList.all hexDigit &&
    b.length == 4 && b.toList.all hexDigit &&
    (match c.toList with
     | v :: rest => ('1' ≤ v && v ≤ '5') && rest.length == 3 && rest.all hexDigit
     | [] => false) &&
    (match d.toList with
     | v :: rest =>
       (v == '8' || v == '9' || lc v == 'a' || lc v == 'b') &&
       rest.length == 3 && rest.all hexDigit
     | [] => false) &&
    e.length == 12 && e.toList.all hexDigit
  | _ => false

/-- The numeric-identifier test `/^\d+$/`. -/
def isNumericId (s : String) : Bool :=
  !(s = "") && s.toList.all (fun c => 48 ≤ c.toNat && c.toNat ≤ 57)

/-- `validateDatabaseId`. -/
def validateDatabaseId (id : String) : ValidationResult :=
  let errors :=
    if id = "" then ["ID is required"]
    else
      (if !(isUuidFormat id) && !(isNumericId id) then
        ["ID must be a valid UUID or numeric identifier"]
      else []) ++
      (if id.length > 100 then ["ID is too long (max 100 characters)"] else [])
  mkResult errors

/-- The email test `/^[^\s@]+@[^\s@]+\.[^\s@]+$/`: exactly one `@`, a
non-empty whitespace-free local part, and a domain with an interior dot. -/
def emailFormatOk (s : String) : Bool :=
  match s.splitOn "@" with
  | [locPart, domain] =>
    !(locPart = "") && locPart.toList.all (fun c => !(jsWS c)) &&
    domain.toList.all (fun c => !(jsWS c)) &&
    ((domain.toList.drop 1).dropLast.contains '.')
  | _ => false

/-- `validateEmail`. -/
def validateEmail (email : String) : ValidationResult :=
  let errors :=
    if email = "" then ["Email is required"]
    else
      (if !(emailFormatOk email) then ["Email format is invalid"] else []) ++
      (if email.length > 254 then ["Email is too long (max 254 characters)"] else [])
  mkResult errors

/-- `validateJson`; `jsonOk` is the host `JSON.parse` success. -/
def validateJson (jsonOk : String → Bool) (value : String) (field : String) :
    ValidationResult :=
  if value = "" then { isValid := true, errors := [] }
  else
    let errors := if !(jsonOk value) then [field ++ " must be valid JSON"] else []
    mkResult errors

/-- JavaScript `trim()` (both ends, `\s`-like class). -/
def jsTrim (s : String) : String :=
  String.mk (((s.toList.dropWhile jsWS).reverse.dropWhile jsWS).reverse)

/-- Case-insensitive substring search, as an unanchored `/i` regex test. -/
def containsCI (needle : List Char) : List Char → Bool
  | [] => needle.isEmpty
  | c :: cs => (matchCI needle (c :: cs)).isSome || containsCI needle cs

/-- The test `/on\w+\s*=/i`: somewhere in the string, `on`, then one or more
word characters, then optional whitespace, then `=`. -/
def hasEventHandler : List Char → Bool
  | [] => false
  | c :: cs =>
    (lc c == 'o' &&
      (match cs with
       | c2 :: rest =>
         lc c2 == 'n' &&
         (let w := rest.takeWhile jsWordChar
          !(w = []) &&
            (match (rest.drop w.length).dropWhile jsWS with
             | eq :: _ => eq == '='
             | [] => false))
       | [] => false)) ||
    hasEventHandler cs

/-- The suspicious-pattern loop of `validateSearchQuery`: `/<script/i`,
`/javascript:/i`, `/on\w+\s*=/i`, `/data:/i`; one error at most (`break`). -/
def hasSuspiciousPattern (q : String) : Bool :=
  containsCI "<script".toList q.toList ||
  containsCI "javascript:".toList q.toList ||
  hasEventHandler q.toList ||
  containsCI "data:".toList q.toList

/-- `validateSearchQuery`; the parameter is optional because the source
guards `query !== undefined && query !== null` despite the `string` type. -/
def validateSearchQuery (query : Option String) : ValidationResult :=
  let errors :=
    match query with
    | none => []
    | some q =>
      (if (jsTrim q).length == 0 then ["Search query cannot be empty"] else []) ++
      (if q.length > 500 then ["Search query too long (max 500 characters)"] else []) ++
      (if hasSuspiciousPattern q then ["Search query contains invalid characters"] else [])
  mkResult errors

/-- `validatePaginationParams`. -/
def validatePaginationParams (page : Option Int) (limit : Option Int) :
    ValidationResult :=
  let errors :=
    (match page with
     | some p =>
       let pageValidation := validateNumericRange p "page" 1 10000
       if !(pageValidation.isValid) then pageValidation.errors else []
     | none => []) ++
    (match limit with
     | some l =>
       let limitValidation := validateNumericRange l "limit" 1 1000
       if !(limitValidation.isValid) then limitValidation.errors else []
     | none => [])
  mkResult errors

/-- JavaScript strict equality of a value against a string literal. -/
def strictEqStr (v : JSVal) (s : String) : Bool :=
  match v with
  | .str t => t = s
  | _ => false

/-- The `['bearer', 'apikey', 'basic', 'oauth2'].includes(type)` test; the
strict equality of `includes` only ever holds for a string value. -/
def authTypeListed (t : JSVal) : Bool :=
  match t with
  | .str s => (["bearer", "apikey", "basic", "oauth2"] : List String).contains s
  | _ => false

/-- `validateAuthConfig` (input typed `any`). -/
def validateAuthConfig (authConfig : JSVal) : ValidationResult :=
  if !(truthy authConfig) then { isValid := true, errors := [] }
  else if !(jsTypeof authConfig == "object") then
    { isValid := false, errors := ["Auth config must be an object"] }
  else
    match authConfig with
    | .obj fields =>
      let type := getField fields "type"
      let token := getField fields "token"
      let key := getField fields "key"
      let value := getField fields "value"
      let errors :=
        (if !(truthy type) then ["Auth type is required"]
         else if !(authTypeListed type) then
           ["Auth type must be one of: bearer, apikey, basic, oauth2"]
         else []) ++
        (if strictEqStr type "bearer" && !(truthy token) then
          ["Bearer token is required for bearer auth"]
        else []) ++
        (if strictEqStr type "apikey" && (!(truthy key) || !(truthy value)) then
          ["API key and value are required for apikey auth"]
        else [])
      mkResult errors
    | _ => { isValid := false, errors := ["Auth config must be an object"] }

/-- The request object of `validateApiRequest`: every field optional
(`undefined` when absent), the `any`-typed ones as `JSVal`. -/
structure ApiRequest where
  name : Option String := none
  method : Option String := none
  url : Option String := none
  description : Option String := none
  headers : JSVal := .undefined
  authConfig : JSVal := .undefined
  body : JSVal := .undefined

/-- `!x` on an optional string: absent or empty. -/
def optFalsy : Option String → Bool
  | none => true
  | some s => s = ""

/-- `validateApiRequest`. -/
def validateApiRequest (canParse : String → Bool) (jsonOk : String → Bool)
    (request : ApiRequest) : ValidationResult :=
  let errors :=
    (if optFalsy request.name then ["API name is required"]
     else
       match request.name with
       | some n =>
         let nameValidation := validateStringLength n "name" 1 200
         if !(nameValidation.isValid) then nameValidation.errors else []
       | none => []) ++
    (if optFalsy request.method then ["HTTP method is required"]
     else
       match request.method with
       | some m =>
         let methodValidation := validateHttpMethod m
         if !(methodValidation.isValid) then methodValidation.errors else []
       | none => []) ++
    (if optFalsy request.url then ["URL is required"]
     else
       match request.url with
       | some u =>
         let urlValidation := validateUrl canParse u
         if !(urlValidation.isValid) then urlValidation.errors else []
       | none => []) ++
    (match request.description with
     | some d =>
       if !(d = "") then
         let descValidation := validateStringLength d "description" 0 1000
         if !(descValidation.isValid) then descValidation.errors else []
       else []
     | none => []) ++
    (if truthy request.authConfig then
      let authValidation := validateAuthConfig request.authConfig
      if !(authValidation.isValid) then authValidation.errors else []
    else []) ++
    (match request.headers with
     | .str h =>
       if truthy (.str h) then
         let headersValidation := validateJson jsonOk h "headers"
         if !(headersValidation.isValid) then headersValidation.errors else []
       else []
     | _ => []) ++
    (match request.body with
     | .str b =>
       if truthy (.str b) then
         let bodyValidation := validateJson jsonOk b "body"
         if !(bodyValidation.isValid) then bodyValidation.errors else []
       else []
     | _ => [])
  mkResult errors

/-- `combineValidations`. -/
def combineValidations (validations : List ValidationResult) : ValidationResult :=
  let allErrors := validations.flatMap (fun v => v.errors)
  { isValid := allErrors.length == 0, errors := allErrors }

/-! ## Error handler (`src/utils/error-handler.ts`)

`new Date().toISOString()` is an effect of the host clock and is passed in
as the `now` argument; thrown JavaScript values are modelled by `Thrown`
(an `AppError`, any other `Error`, or a non-`Error` value). -/

/-- The `ErrorCode` enum. -/
inductive ErrorCode where
  | VALIDATION_ERROR
  | DATABASE_ERROR
  | AUTHENTICATION_ERROR
  | AUTHORIZATION_ERROR
  | NOT_FOUND
  | INTERNAL_ERROR
  | TIMEOUT_ERROR
  | RATE_LIMIT_ERROR
  | EXTERNAL_SERVICE_ERROR
deriving DecidableEq

/-- The `error` object of an `ErrorResponse`. -/
structure ErrorInfo where
  code : ErrorCode
  message : String
  details : JSVal
  timestamp : String

/-- The standard error response format (`success: false`). -/
structure ErrorResponse where
  success : Bool
  error : ErrorInfo

/-- The standard success response format (`success: true`). -/
structure SuccessResponse (T : Type) where
  success : Bool
  data : T
  timestamp : String

/-- The `ApiResponse<T>` union. -/
inductive ApiResponse (T : Type) where
  | ok : SuccessResponse T → ApiResponse T
  | err : ErrorResponse → ApiResponse T

/-- A thrown JavaScript value as `ErrorHandler.handleError` discriminates it:
an `AppError` (with its code, message, details and status code), any other
`Error` (only its message is read), or a non-`Error` value. -/
inductive Thrown where
  | appError : ErrorCode → String → JSVal → Int → Thrown
  | jsError : String → Thrown
  | nonError : JSVal → Thrown

/-- `ErrorHandler.createErrorResponse`. -/
def createErrorResponse (now : String) (code : ErrorCode) (message : String)
    (details : JSVal) : ErrorResponse :=
  { success := false
    error :=
      { code := code
        message := sanitizeErrorMessage message
        details := sanitizeErrorDetails details
        timestamp := now } }

/-- `ErrorHandler.createSuccessResponse`. -/
def createSuccessResponse {T : Type} (now : String) (data : T) :
    SuccessResponse T :=
  { success := true, data := data, timestamp := now }

/-- `ErrorHandler.handleError` (the logger calls are effects on the log
stream only and do not touch the returned value). -/
def handleError (now : String) (e : Thrown) : ErrorResponse :=
  match e with
  | .appError code message details _ => createErrorResponse now code message details
  | .jsError message =>
    createErrorResponse now .INTERNAL_ERROR "An unexpected error occurred"
      (.obj [("originalMessage", .str message)])
  | .nonError _ =>
    createErrorResponse now .INTERNAL_ERROR "An unknown error occurred" .undefined

/-- `ErrorHandler.wrapAsync`: the settled outcome of the wrapped promise
(`Except.ok` a resolution, `Except.error` a rejection with the thrown
value) mapped through the try/catch. -/
def wrapAsync {T : Type} (now : String) (outcome : Except Thrown T) :
    ApiResponse T :=
  match outcome with
  | .ok result => .ok (createSuccessResponse now result)
  | .error e => .err (handleError now e)

/-! ## Ingestion pipeline, modelled from the spec

The collection parser, variable resolver and batch importer of the
specification's sections 4.1-4.4 are not among the repository's files (src/
holds only the validation and error-handling utilities); the definitions
below are modelled from the specification's words, as their doc comments
state. -/

/-- Modelled from the spec: a string template as the resolver reads it — an
ordered sequence of literal runs and `VariableRef` placeholder tokens
("a placeholder token embedded in a string template, identified by name";
"a template may contain multiple distinct references"). -/
inductive Tok where
  | lit : String → Tok
  | ref : String → Tok
deriving DecidableEq

/-- A template: the parsed form of a string with variable references. -/
abbrev Template := List Tok

/-- One scope's variable map (name to value template). -/
abbrev Scope := List (String × Template)

/-- Modelled from the spec: `VariableResolutionError{CircularReference, Unresolved}`. -/
inductive VariableResolutionError where
  | circularReference : List String → VariableResolutionError
  | unresolved : String → VariableResolutionError
deriving DecidableEq

/-- Modelled from the spec: the scope chain is "an ordered list of mappings
searched front-to-back", nearest-enclosing first; the first scope that
defines the name wins. -/
def lookupVar (scopes : List Scope) (n : String) : Option Template :=
  match scopes with
  | [] => none
  | s :: rest =>
    match s.find? (fun p => p.1 = n) with
    | some p => some p.2
    | none => lookupVar rest n

/-- The names defined anywhere in the chain, deduplicated: resolution depth
is bounded by their number, which bounds the fuel of `resolveTemplate`. -/
def varCount (scopes : List Scope) : Nat :=
  ((scopes.flatMap (fun s => s.map (fun p => p.1))).dedup).length

/-- The cycle reported for a revisited name: the visited path from the first
occurrence of the name, closed with the name ("the chain in the error is the
exact cycle"). -/
def cycleFrom (visiting : List String) (n : String) : List String :=
  (visiting.dropWhile (fun x => !(x = n))) ++ [n]

/-- Modelled from the spec: template resolution. Each `VariableRef` is
replaced by the resolved value of the named variable; a name already on the
per-resolution visited path fails with `CircularReference` carrying the
cycle; a name no scope defines fails with `Unresolved`. The fuel only bounds
the descent depth; `resolveEntry` passes more fuel than there are variable
names, so exhaustion is unreachable and is mapped to the cycle error the
visited-set detector would raise. -/
def resolveTemplate (scopes : List Scope) :
    Nat → List String → Template → Except VariableResolutionError String
  | _, _, [] => .ok ""
  | fuel, visiting, .lit s :: rest =>
    match resolveTemplate scopes fuel visiting rest with
    | .ok v => .ok (s ++ v)
    | .error e => .error e
  | fuel, visiting, .ref n :: rest =>
    if n ∈ visiting then .error (.circularReference (cycleFrom visiting n))
    else
      match lookupVar scopes n with
      | none => .error (.unresolved n)
      | some tmpl =>
        match fuel with
        | 0 => .error (.circularReference [n])
        | fuel' + 1 =>
          match resolveTemplate scopes fuel' (visiting ++ [n]) tmpl with
          | .error e => .error e
          | .ok value =>
            match resolveTemplate scopes (fuel' + 1) visiting rest with
            | .ok v => .ok (value ++ v)
            | .error e => .error e
termination_by fuel _ t => (fuel, t.length)
decreasing_by
  · simp [Prod.lex_iff]
  · simp [Prod.lex_iff]
  · simp [Prod.lex_iff]

/-- Modelled from the spec: `Resolve` on one template, entered with an empty
visited path and fuel exceeding the number of defined variable names. -/
def resolveEntry (scopes : List Scope) (t : Template) :
    Except VariableResolutionError String :=
  resolveTemplate scopes (varCount scopes + 1) [] t

/-- Modelled from the spec: a node of the collection tree — "a tagged-variant
node type {Folder, RequestItem}"; a folder carries its scoped variable map
and children, a request item its name and URL template. -/
inductive FolderNode where
  | folder : String → Scope → List FolderNode → FolderNode
  | item : String → Template → FolderNode

/-- Modelled from the spec: walk the tree resolving every request item's
template against the scope chain "nearest-enclosing Folder … walking up the
ancestor chain, then the Collection-level map, then an externally supplied
global/environment map". `ancestors` is the chain of enclosing folder
scopes, nearest first. -/
def resolveItems (collVars globals : Scope) :
    List Scope → List FolderNode → List (String × Except VariableResolutionError String)
  | _, [] => []
  | ancestors, .folder _ fvars kids :: rest =>
    resolveItems collVars globals (fvars :: ancestors) kids ++
    resolveItems collVars globals ancestors rest
  | ancestors, .item iname url :: rest =>
    (iname, resolveEntry (ancestors ++ [collVars, globals]) url) ::
    resolveItems collVars globals ancestors rest

/-- Modelled from the spec: the per-item outcome kinds of `ImportResult`. -/
inductive ImportOutcome where
  | imported
  | skippedBatchRolledBack
  | failed : String → ImportOutcome
deriving DecidableEq

/-- Modelled from the spec: the overall status of an import. -/
inductive BatchStatus where
  | committed
  | rolledBack
deriving DecidableEq

/-- Modelled from the spec: an item's state when the commit decision is
taken — tentatively imported inside the open transaction, or already failed
(resolution, validation or persistence). -/
inductive PendingOutcome where
  | tentativeImported
  | failed : String → PendingOutcome
deriving DecidableEq

/-- Modelled from the spec: `ImportResult` — overall status and the ordered
per-item outcomes. -/
structure ImportResult where
  status : BatchStatus
  outcomes : List ImportOutcome
deriving DecidableEq

/-- Whether a pending item has failed. -/
def isFailed : PendingOutcome → Bool
  | .failed _ => true
  | .tentativeImported => false

/-- Modelled from the spec: the commit decision (step 5 of the import
algorithm). `failureRatio = failedCount / totalCount`; above the threshold
the transaction is rolled back and every tentatively imported outcome is
rewritten to `Skipped{BatchRolledBack}`; otherwise the transaction commits
and tentative outcomes become final `Imported`. -/
def finalizeBatch (maxFailureRatio : Rat) (items : List PendingOutcome) :
    ImportResult :=
  let totalCount := items.length
  let failedCount := (items.filter isFailed).length
  let failureRatio : Rat := (failedCount : Rat) / (totalCount : Rat)
  if failureRatio > maxFailureRatio then
    { status := .rolledBack
      outcomes := items.map (fun i =>
        match i with
        | .tentativeImported => .skippedBatchRolledBack
        | .failed e => .failed e) }
  else
    { status := .committed
      outcomes := items.map (fun i =>
        match i with
        | .tentativeImported => .imported
        | .failed e => .failed e) }

/-- Modelled from the spec: `Import(document, options)` as far as the commit
decision is concerned. `prepared` is the result of parsing and
collection/folder-scope resolution: a batch-fatal error (which aborts with
`RolledBack` and a single outcome describing the failure) or the per-item
pending outcomes that reach the transaction. -/
def importDoc (maxFailureRatio : Rat)
    (prepared : Except String (List PendingOutcome)) : ImportResult :=
  match prepared with
  | .error e => { status := .rolledBack, outcomes := [.failed e] }
  | .ok items => finalizeBatch maxFailureRatio items

/-! # Theorems -/

theorem mkResult_isValid_iff (l : List String) :
    (mkResult l).isValid = true ↔ (mkResult l).errors = [] := by
  simp [mkResult, List.length_eq_zero]

/-- C4: every validation operation (validateHttpMethod, validateUrl,
validateStringLength, validateNumericRange, validateDatabaseId,
validateEmail, validateJson, validateSearchQuery, validatePaginationParams,
validateAuthConfig, validateApiRequest, combineValidations) returns a
ValidationResult whose isValid field is true if and only if its errors list
is empty. -/
theorem C4_isValid_iff_errors_empty :
    (∀ m, ((validateHttpMethod m).isValid = true ↔
      (validateHttpMethod m).errors = [])) ∧
    (∀ cp u, ((validateUrl cp u).isValid = true ↔
      (validateUrl cp u).errors = [])) ∧
    (∀ v f lo hi, ((validateStringLength v f lo hi).isValid = true ↔
      (validateStringLength v f lo hi).errors = [])) ∧
    (∀ v f lo hi, ((validateNumericRange v f lo hi).isValid = true ↔
      (validateNumericRange v f lo hi).errors = [])) ∧
    (∀ i, ((validateDatabaseId i).isValid = true ↔
      (validateDatabaseId i).errors = [])) ∧
    (∀ e, ((validateEmail e).isValid = true ↔
      (validateEmail e).errors = [])) ∧
    (∀ jo v f, ((validateJson jo v f).isValid = true ↔
      (validateJson jo v f).errors = [])) ∧
    (∀ q, ((validateSearchQuery q).isValid = true ↔
      (validateSearchQuery q).errors = [])) ∧
    (∀ p l, ((validatePaginationParams p l).isValid = true ↔
      (validatePaginationParams p l).errors = [])) ∧
    (∀ a, ((validateAuthConfig a).isValid = true ↔
      (validateAuthConfig a).errors = [])) ∧
    (∀ cp jo r, ((validateApiRequest cp jo r).isValid = true ↔
      (validateApiRequest cp jo r).errors = [])) ∧
    (∀ vs, ((combineValidations vs).isValid = true ↔
      (combineValidations vs).errors = [])) := by
  refine ⟨fun m => ?_, fun cp u => ?_, fun v f lo hi => ?_, fun v f lo hi => ?_,
    fun i => ?_, fun e => ?_, fun jo v f => ?_, fun q => ?_, fun p l => ?_,
    fun a => ?_, fun cp jo r => ?_, fun vs => ?_⟩
  · exact mkResult_isValid_iff _
  · exact mkResult_isValid_iff _
  · exact mkResult_isValid_iff _
  · exact mkResult_isValid_iff _
  · exact mkResult_isValid_iff _
  · exact mkResult_isValid_iff _
  · unfold validateJson
    split
    · simp
    · exact mkResult_isValid_iff _
  · exact mkResult_isValid_iff _
  · exact mkResult_isValid_iff _
  · unfold validateAuthConfig
    split
    · simp
    · split
      · simp
      · split
        · exact mkResult_isValid_iff _
        · simp
  · exact mkResult_isValid_iff _
  · show ((combineValidations vs).isValid = true ↔ (combineValidations vs).errors = [])
    unfold combineValidations
    simp only [beq_iff_eq, List.length_eq_zero]

/-- C5: validateHttpMethod accepts exactly the strings whose uppercasing is
in the GET/POST/PUT/DELETE/PATCH/HEAD/OPTIONS whitelist; an empty string
yields the required-field error and any other non-whitelisted string yields
the whitelist error. -/
theorem contains_iff_mem (l : List String) (x : String) :
    l.contains x = true ↔ x ∈ l := by
  rw [List.contains_iff_exists_mem_beq]
  simp [beq_iff_eq]

theorem C5_validateHttpMethod_whitelist :
    ∀ m : String,
      ((validateHttpMethod m).isValid = true ↔ jsToUpper m ∈ validMethods) ∧
      (m = "" →
        (validateHttpMethod m).errors = ["HTTP method is required"]) ∧
      (m ≠ "" → jsToUpper m ∉ validMethods →
        (validateHttpMethod m).errors =
          ["HTTP method must be one of: GET, POST, PUT, DELETE, PATCH, HEAD, OPTIONS"]) := by
  intro m
  refine ⟨?_, fun he => ?_, fun hne hnm => ?_⟩
  · by_cases he : m = ""
    · subst he
      exact iff_of_false (by decide) (by decide)
    · unfold validateHttpMethod
      rw [if_neg he]
      by_cases hc : validMethods.contains (jsToUpper m)
      · rw [hc]
        simp only [Bool.not_true, if_false]
        exact iff_of_true (by decide) ((contains_iff_mem _ _).mp hc)
      · rw [Bool.not_eq_true] at hc
        rw [hc]
        simp only [Bool.not_false, if_true]
        refine iff_of_false ?_ ?_
        · simp [mkResult]
        · intro hmem
          rw [← contains_iff_mem, hc] at hmem
          exact Bool.false_ne_true hmem
  · subst he
    decide
  · unfold validateHttpMethod
    have hc : validMethods.contains (jsToUpper m) = false := by
      rw [← Bool.not_eq_true]
      intro h
      exact hnm ((contains_iff_mem _ _).mp h)
    rw [if_neg hne, hc]
    show (mkResult ["HTTP method must be one of: " ++ String.intercalate ", " validMethods]).errors = _
    simp only [mkResult]
    decide

theorem C5_witness :
    (validateHttpMethod "delete").isValid = true ∧
    (validateHttpMethod "XYZ").errors =
      ["HTTP method must be one of: GET, POST, PUT, DELETE, PATCH, HEAD, OPTIONS"] :=
  ⟨(C5_validateHttpMethod_whitelist "delete").1.mpr (by decide),
   (C5_validateHttpMethod_whitelist "XYZ").2.2 (by decide) (by decide)⟩

/-- C6: validateUrl accepts exactly the non-empty strings the URL parser
accepts that start with https:// and are at most 2000 characters long; its
error messages are the required-field, invalid-format and HTTPS messages. -/
theorem C6_validateUrl_spec :
    ∀ (canParse : String → Bool) (url : String),
      ((validateUrl canParse url).isValid = true ↔
        (url ≠ "" ∧ canParse url = true ∧ jsStartsWith url "https://" = true ∧
          url.length ≤ 2000)) ∧
      (url = "" → (validateUrl canParse url).errors = ["URL is required"]) ∧
      (url ≠ "" → canParse url = false →
        (validateUrl canParse url).errors = ["URL format is invalid"]) ∧
      (url ≠ "" → canParse url = true → jsStartsWith url "https://" = false →
        "URL must use HTTPS protocol" ∈ (validateUrl canParse url).errors) := by
  intro canParse url
  refine ⟨?_, fun he => ?_, fun hne hp => ?_, fun hne hp hs => ?_⟩
  · unfold validateUrl
    by_cases he : url = ""
    · simp [he, mkResult]
    · simp only [he, if_false]
      by_cases hp : canParse url
      · by_cases hs : jsStartsWith url "https://"
        · by_cases hl : url.length > 2000
          · simp [hp, hs, hl, mkResult, he] <;> omega
          · simp [hp, hs, hl, mkResult, he] <;> omega
        · rw [Bool.not_eq_true] at hs
          simp [hp, hs, mkResult, he]
      · rw [Bool.not_eq_true] at hp
        simp [hp, mkResult, he]
  · simp [validateUrl, he, mkResult]
  · simp [validateUrl, hne, hp, mkResult]
  · simp [validateUrl, hne, hp, hs, mkResult]

theorem C6_witness :
    ((validateUrl (fun _ => true) "https://api.example.com").isValid = true) ∧
    ((validateUrl (fun _ => false) "not-a-url").errors = ["URL format is invalid"]) ∧
    ("URL must use HTTPS protocol" ∈
      (validateUrl (fun _ => true) "http://api.example.com").errors) :=
  ⟨(C6_validateUrl_spec (fun _ => true) "https://api.example.com").1.mpr
      ⟨by decide, by decide, by decide, by decide⟩,
   (C6_validateUrl_spec (fun _ => false) "not-a-url").2.2.1 (by decide) (by decide),
   (C6_validateUrl_spec (fun _ => true) "http://api.example.com").2.2.2
      (by decide) (by decide) (by decide)⟩

theorem mkResult_isValid_false {E : List String} {x : String} (h : x ∈ E) :
    (mkResult E).isValid = false := by
  cases E with
  | nil => cases h
  | cons a t => simp [mkResult]

/-- C7: validateApiRequest reports the matching required-field message (and
is invalid) whenever name, method or url is absent or empty; and accepts
every request whose name, method and url are present, non-empty and valid
and whose optional fields pass their checks. -/
theorem C7_validateApiRequest_required_fields :
    ∀ (cp jo : String → Bool) (r : ApiRequest),
      (optFalsy r.name = true → (validateApiRequest cp jo r).isValid = false ∧
        "API name is required" ∈ (validateApiRequest cp jo r).errors) ∧
      (optFalsy r.method = true → (validateApiRequest cp jo r).isValid = false ∧
        "HTTP method is required" ∈ (validateApiRequest cp jo r).errors) ∧
      (optFalsy r.url = true → (validateApiRequest cp jo r).isValid = false ∧
        "URL is required" ∈ (validateApiRequest cp jo r).errors) ∧
      (∀ n m u, r.name = some n → r.method = some m → r.url = some u →
        n ≠ "" → m ≠ "" → u ≠ "" →
        (validateStringLength n "name" 1 200).isValid = true →
        (validateHttpMethod m).isValid = true →
        (validateUrl cp u).isValid = true →
        (∀ d, r.description = some d → d ≠ "" →
          (validateStringLength d "description" 0 1000).isValid = true) →
        (truthy r.authConfig = true →
          (validateAuthConfig r.authConfig).isValid = true) →
        (∀ hs, r.headers = .str hs → hs ≠ "" →
          (validateJson jo hs "headers").isValid = true) →
        (∀ bs, r.body = .str bs → bs ≠ "" →
          (validateJson jo bs "body").isValid = true) →
        (validateApiRequest cp jo r).isValid = true) := by
  intro cp jo r
  refine ⟨fun hname => ?_, fun hmethod => ?_, fun hurl => ?_,
    fun n m u hn hm hu hne mne une hvn hvm hvu hdesc hauth hhdr hbody => ?_⟩
  · have hmem : "API name is required" ∈ (validateApiRequest cp jo r).errors := by
      unfold validateApiRequest
      simp only [hname, if_true, mkResult]
      simp
    exact ⟨mkResult_isValid_false hmem, hmem⟩
  · have hmem : "HTTP method is required" ∈ (validateApiRequest cp jo r).errors := by
      unfold validateApiRequest
      simp only [hmethod, if_true, mkResult]
      simp
    exact ⟨mkResult_isValid_false hmem, hmem⟩
  · have hmem : "URL is required" ∈ (validateApiRequest cp jo r).errors := by
      unfold validateApiRequest
      simp only [hurl, if_true, mkResult]
      simp
    exact ⟨mkResult_isValid_false hmem, hmem⟩
  · unfold validateApiRequest
    have h1 : optFalsy r.name = false := by simp [hn, optFalsy, hne]
    have h2 : optFalsy r.method = false := by simp [hm, optFalsy, mne]
    have h3 : optFalsy r.url = false := by simp [hu, optFalsy, une]
    simp only [h1, h2, h3, hn, hm, hu, Bool.false_eq_true, if_false, hvn, hvm, hvu,
      Bool.not_true, mkResult]
    have hdesc2 : (match r.description with
        | some d =>
          if !(d = "") then
            let descValidation := validateStringLength d "description" 0 1000
            if !(descValidation.isValid) then descValidation.errors else []
          else []
        | none => []) = [] := by
      cases hd : r.description with
      | none => simp
      | some d =>
        by_cases hde : d = ""
        · simp [hde]
        · simp [hde, hdesc d hd hde]
    have hauth2 : (if truthy r.authConfig then
        let authValidation := validateAuthConfig r.authConfig
        if !(authValidation.isValid) then authValidation.errors else []
      else []) = [] := by
      by_cases ha : truthy r.authConfig
      · simp [ha, hauth ha]
      · simp [ha]
    have hhdr2 : (match r.headers with
        | JSVal.str h =>
          if truthy (.str h) then
            let headersValidation := validateJson jo h "headers"
            if !(headersValidation.isValid) then headersValidation.errors else []
          else []
        | _ => []) = [] := by
      cases hh : r.headers <;> simp
      rename_i hs
      by_cases hhe : hs = ""
      · simp [hhe, truthy]
      · simp [truthy, hhe, hhdr hs hh hhe]
    have hbody2 : (match r.body with
        | JSVal.str b =>
          if truthy (.str b) then
            let bodyValidation := validateJson jo b "body"
            if !(bodyValidation.isValid) then bodyValidation.errors else []
          else []
        | _ => []) = [] := by
      cases hb : r.body <;> simp
      rename_i bs
      by_cases hbe : bs = ""
      · simp [hbe, truthy]
      · simp [truthy, hbe, hbody bs hb hbe]
    rw [hdesc2, hauth2, hhdr2, hbody2]
    simp [optFalsy, hne, mne, une]

theorem C7_witness :
    ((validateApiRequest (fun _ => true) (fun _ => true)
        { name := some "Get Users", method := some "GET",
          url := some "https://api.example.com" }).isValid = true) ∧
    ((validateApiRequest (fun _ => true) (fun _ => true) {}).isValid = false) ∧
    ("API name is required" ∈
      (validateApiRequest (fun _ => true) (fun _ => true) {}).errors) := by
  have h1 := (C7_validateApiRequest_required_fields (fun _ => true) (fun _ => true)
    { name := some "Get Users", method := some "GET",
      url := some "https://api.example.com" }).2.2.2
    "Get Users" "GET" "https://api.example.com" rfl rfl rfl
    (by decide) (by decide) (by decide) (by decide) (by decide) (by decide)
    (by intro d hd; cases hd) (by intro h; cases h)
    (by intro hs h; cases h) (by intro bs h; cases h)
  have h2 := (C7_validateApiRequest_required_fields (fun _ => true) (fun _ => true) {}).1
    (by decide)
  exact ⟨h1, h2.1, h2.2⟩

/-- C8 as stated is violated by a falsy non-object config: the empty string
is neither null nor undefined and is not an object, yet it is accepted. -/
theorem C8_counterexample :
    jsTypeof (.str "") ≠ "object" ∧ (JSVal.str "") ≠ .null ∧
    (JSVal.str "") ≠ .undefined ∧
    (validateAuthConfig (.str "")).isValid = true := by
  refine ⟨by decide, by simp, by simp, by decide⟩

/-- C8 amended: validateAuthConfig accepts every falsy config (null,
undefined, empty string, zero, false); a truthy non-object is rejected with
the object error; a truthy object is valid exactly when its type field is
one of bearer/apikey/basic/oauth2 (as a string), with a truthy token when
the type is bearer and truthy key and value when the type is apikey. -/
theorem authTypeListed_truthy {T : JSVal} (h : authTypeListed T = true) :
    truthy T = true := by
  unfold authTypeListed at h
  cases T with
  | str s =>
    have hmem : s ∈ ["bearer", "apikey", "basic", "oauth2"] :=
      (contains_iff_mem _ _).mp h
    have hs : s ≠ "" := by
      intro he
      subst he
      simp at hmem
    simp [truthy, hs]
  | null => exact absurd h (by simp)
  | undefined => exact absurd h (by simp)
  | num n => exact absurd h (by simp)
  | bool b => exact absurd h (by simp)
  | obj f => exact absurd h (by simp)

theorem authCore (T Tok K V : JSVal)
    (hl : authTypeListed T = true → truthy T = true) :
    ((mkResult
      ((if !(truthy T) then ["Auth type is required"]
        else if !(authTypeListed T) then
          ["Auth type must be one of: bearer, apikey, basic, oauth2"]
        else []) ++
       (if strictEqStr T "bearer" && !(truthy Tok) then
         ["Bearer token is required for bearer auth"] else []) ++
       (if strictEqStr T "apikey" && (!(truthy K) || !(truthy V)) then
         ["API key and value are required for apikey auth"] else []))).isValid = true)
    ↔ (authTypeListed T = true ∧
       (strictEqStr T "bearer" = true → truthy Tok = true) ∧
       (strictEqStr T "apikey" = true → truthy K = true ∧ truthy V = true)) := by
  by_cases h2 : authTypeListed T
  · have h1 := hl h2
    by_cases h3 : strictEqStr T "bearer" <;> by_cases h4 : truthy Tok <;>
      by_cases h5 : strictEqStr T "apikey" <;> by_cases h6 : truthy K <;>
      by_cases h7 : truthy V <;>
      simp [h1, h2, h3, h4, h5, h6, h7, mkResult]
  · by_cases h1 : truthy T <;>
      by_cases h3 : strictEqStr T "bearer" <;> by_cases h4 : truthy Tok <;>
      by_cases h5 : strictEqStr T "apikey" <;> by_cases h6 : truthy K <;>
      by_cases h7 : truthy V <;>
      simp [h1, h2, h3, h4, h5, h6, h7, mkResult]

theorem C8_validateAuthConfig_amended :
    ∀ a : JSVal,
      (truthy a = false → validateAuthConfig a = { isValid := true, errors := [] }) ∧
      (truthy a = true → jsTypeof a ≠ "object" →
        validateAuthConfig a = { isValid := false, errors := ["Auth config must be an object"] }) ∧
      (∀ fields, a = .obj fields →
        ((validateAuthConfig a).isValid = true ↔
          (authTypeListed (getField fields "type") = true ∧
           (strictEqStr (getField fields "type") "bearer" = true →
             truthy (getField fields "token") = true) ∧
           (strictEqStr (getField fields "type") "apikey" = true →
             truthy (getField fields "key") = true ∧
             truthy (getField fields "value") = true)))) := by
  intro a
  refine ⟨fun hf => ?_, fun ht hno => ?_, fun fields hf => ?_⟩
  · unfold validateAuthConfig
    simp [hf]
  · unfold validateAuthConfig
    rw [ht]
    simp only [Bool.not_true, Bool.false_eq_true, if_false]
    have : (jsTypeof a == "object") = false := by
      simp [hno]
    rw [this]
    simp
  · subst hf
    exact authCore (getField fields "type") (getField fields "token")
      (getField fields "key") (getField fields "value")
      (fun h => authTypeListed_truthy h)

theorem C8_witness :
    (validateAuthConfig (.obj [("type", .str "apikey"), ("key", .str "X-API-Key"),
      ("value", .str "abc123")])).isValid = true :=
  ((C8_validateAuthConfig_amended _).2.2 _ rfl).mpr
    ⟨by decide, by decide, fun _ => ⟨by decide, by decide⟩⟩

/-- C10 as stated fails: handleError does not preserve an AppError's message
verbatim — the message passes through sanitizeErrorMessage, which rewrites
secret patterns. -/
theorem C10_counterexample :
    (handleError "2024-01-01T00:00:00.000Z"
      (.appError .NOT_FOUND "password=hunter2" .undefined 404)).error.message
      ≠ "password=hunter2" := by
  decide

/-- C10 amended: handleError is total over the modelled thrown values and
always returns success = false; an AppError keeps its code and its message
is passed through sanitizeErrorMessage (so it is preserved only up to secret
-pattern rewriting); any other Error maps to INTERNAL_ERROR with message
'An unexpected error occurred'; a non-Error value maps to INTERNAL_ERROR
with 'An unknown error occurred'; wrapAsync never rethrows and returns a
SuccessResponse exactly when the wrapped function resolves. -/
theorem C10_handleError_amended :
    (∀ now e, (handleError now e).success = false) ∧
    (∀ now code message details statusCode,
      (handleError now (.appError code message details statusCode)).error.code = code ∧
      (handleError now (.appError code message details statusCode)).error.message =
        sanitizeErrorMessage message) ∧
    (∀ now message,
      (handleError now (.jsError message)).error.code = .INTERNAL_ERROR ∧
      (handleError now (.jsError message)).error.message =
        "An unexpected error occurred") ∧
    (∀ now v,
      (handleError now (.nonError v)).error.code = .INTERNAL_ERROR ∧
      (handleError now (.nonError v)).error.message = "An unknown error occurred") ∧
    (∀ (T : Type) (now : String) (outcome : Except Thrown T),
      ((∃ s, wrapAsync now outcome = .ok s) ↔ (∃ v, outcome = .ok v)) ∧
      (∀ e, outcome = .error e → wrapAsync now outcome = .err (handleError now e))) := by
  refine ⟨fun now e => ?_, fun now c m d sc => ⟨rfl, rfl⟩,
    fun now m => ⟨rfl, by
      show sanitizeErrorMessage "An unexpected error occurred" =
        "An unexpected error occurred"
      decide⟩,
    fun now v => ⟨rfl, by
      show sanitizeErrorMessage "An unknown error occurred" =
        "An unknown error occurred"
      decide⟩,
    fun T now outcome => ⟨?_, fun e he => ?_⟩⟩
  · cases e <;> rfl
  · constructor
    · intro ⟨s, hs⟩
      cases outcome with
      | ok v => exact ⟨v, rfl⟩
      | error e => exact absurd hs (by simp [wrapAsync])
    · intro ⟨v, hv⟩
      subst hv
      exact ⟨createSuccessResponse now v, rfl⟩
  · subst he
    rfl

theorem C10_witness :
    (handleError "2024-01-01T00:00:00.000Z" (.jsError "boom")).error.code =
      .INTERNAL_ERROR ∧
    wrapAsync "2024-01-01T00:00:00.000Z"
        (Except.error (Thrown.jsError "boom") : Except Thrown Nat) =
      .err (handleError "2024-01-01T00:00:00.000Z" (.jsError "boom")) :=
  ⟨(C10_handleError_amended.2.2.1 "2024-01-01T00:00:00.000Z" "boom").1,
   (C10_handleError_amended.2.2.2.2 Nat "2024-01-01T00:00:00.000Z"
      (Except.error (.jsError "boom"))).2 (Thrown.jsError "boom") rfl⟩

/-- C1: once parsing and collection/folder-scope resolution succeed, the
batch import computes failureRatio = failedCount / totalCount and rolls the
whole transaction back exactly when it exceeds the threshold — status RolledBack,
no Imported outcome, every tentatively imported item rewritten to
Skipped{BatchRolledBack} — and otherwise commits, tentative outcomes
becoming final Imported. -/
theorem C1_import_failure_ratio :
    ∀ (thr : Rat) (prepared : Except String (List PendingOutcome))
      (items : List PendingOutcome),
      prepared = .ok items →
      ((((items.filter isFailed).length : Rat) / (items.length : Rat) > thr →
        (importDoc thr prepared).status = .rolledBack ∧
        (∀ o ∈ (importDoc thr prepared).outcomes, o ≠ .imported) ∧
        (∀ i : Nat, items[i]? = some .tentativeImported →
          (importDoc thr prepared).outcomes[i]? = some .skippedBatchRolledBack)) ∧
      (¬(((items.filter isFailed).length : Rat) / (items.length : Rat) > thr) →
        (importDoc thr prepared).status = .committed ∧
        (∀ i : Nat, items[i]? = some .tentativeImported ↔
          (importDoc thr prepared).outcomes[i]? = some .imported))) := by
  intro thr prepared items hprep
  subst hprep
  simp only [importDoc, finalizeBatch]
  constructor
  · intro hr
    rw [if_pos hr]
    refine ⟨rfl, ?_, ?_⟩
    · intro o ho
      simp only [List.mem_map] at ho
      obtain ⟨p, _, hp⟩ := ho
      cases p <;> (rw [← hp]; simp)
    · intro i hi
      simp only [List.getElem?_map, hi, Option.map_some]
      rfl
  · intro hr
    rw [if_neg hr]
    refine ⟨rfl, fun i => ?_⟩
    constructor
    · intro hi
      simp only [List.getElem?_map, hi, Option.map_some]
      rfl
    · intro hi
      simp only [List.getElem?_map] at hi
      cases hgi : items[i]? with
      | none => rw [hgi] at hi; exact absurd hi (by simp)
      | some p =>
        rw [hgi] at hi
        cases p with
        | tentativeImported => rfl
        | failed e => exact absurd hi (by simp)

theorem C1_witness :
    ((importDoc (1/2) (.ok [.tentativeImported, .failed "bad url",
        .failed "bad method"])).status = .rolledBack ∧
      (importDoc (1/2) (.ok [.tentativeImported, .failed "bad url",
        .failed "bad method"])).outcomes[0]? = some .skippedBatchRolledBack) ∧
    ((importDoc (1/2) (.ok [.tentativeImported, .tentativeImported,
        .failed "bad url"])).status = .committed ∧
      (importDoc (1/2) (.ok [.tentativeImported, .tentativeImported,
        .failed "bad url"])).outcomes[0]? = some .imported) := by
  constructor
  · have h := (C1_import_failure_ratio (1/2)
      (.ok [.tentativeImported, .failed "bad url", .failed "bad method"])
      [.tentativeImported, .failed "bad url", .failed "bad method"] rfl).1
      (by norm_num [isFailed])
    exact ⟨h.1, h.2.2 0 rfl⟩
  · have h := (C1_import_failure_ratio (1/2)
      (.ok [.tentativeImported, .tentativeImported, .failed "bad url"])
      [.tentativeImported, .tentativeImported, .failed "bad url"] rfl).2
      (by norm_num [isFailed])
    exact ⟨h.1, (h.2 0).mp rfl⟩

theorem lookupVar_mem_names {scopes : List Scope} {n : String} {t : Template}
    (h : lookupVar scopes n = some t) :
    n ∈ scopes.flatMap (fun s => s.map (fun p => p.1)) := by
  induction scopes with
  | nil => simp [lookupVar] at h
  | cons s rest ih =>
    rw [lookupVar] at h
    rw [List.flatMap_cons, List.mem_append]
    cases hf : s.find? (fun p => p.1 = n) with
    | some p =>
      have hp : (p.1 = n) := by
        have := List.find?_some hf
        simpa using this
      have hmem := List.mem_of_find?_eq_some hf
      exact Or.inl (List.mem_map.mpr ⟨p, hmem, hp⟩)
    | none =>
      rw [hf] at h
      exact Or.inr (ih h)

theorem varCount_pos {scopes : List Scope} {n : String} {t : Template}
    (h : lookupVar scopes n = some t) : 1 ≤ varCount scopes := by
  have hmem := List.mem_dedup.mpr (lookupVar_mem_names h)
  have := List.ne_nil_of_mem hmem
  unfold varCount
  cases hd : (scopes.flatMap (fun s => s.map (fun p => p.1))).dedup with
  | nil => exact absurd hd this
  | cons a l => simp

theorem resolveTemplate_lit_error {scopes : List Scope} {fuel : Nat}
    {visiting : List String} {l rest : List Tok} {e : VariableResolutionError}
    (hl : ∀ t ∈ l, ∃ s, t = Tok.lit s)
    (he : resolveTemplate scopes fuel visiting rest = .error e) :
    resolveTemplate scopes fuel visiting (l ++ rest) = .error e := by
  induction l with
  | nil => simpa using he
  | cons t ts ih =>
    obtain ⟨s, hs⟩ := hl t (by simp)
    subst hs
    rw [List.cons_append, resolveTemplate, ih (fun x hx => hl x (by simp [hx]))]

theorem resolveTemplate_ref_visited {scopes : List Scope} {fuel : Nat}
    {visiting : List String} {n : String} {rest : List Tok} (h : n ∈ visiting) :
    resolveTemplate scopes fuel visiting (.ref n :: rest) =
      .error (.circularReference (cycleFrom visiting n)) := by
  rw [resolveTemplate]
  simp [h]

theorem resolveTemplate_ref_step_error {scopes : List Scope} {fuel : Nat}
    {visiting : List String} {n : String} {rest : List Tok} {tmpl : Template}
    {e : VariableResolutionError}
    (hnv : n ∉ visiting) (hlk : lookupVar scopes n = some tmpl)
    (he : resolveTemplate scopes fuel (visiting ++ [n]) tmpl = .error e) :
    resolveTemplate scopes (fuel + 1) visiting (.ref n :: rest) = .error e := by
  rw [resolveTemplate]
  simp [hnv, hlk, he]

theorem resolveTemplate_ref_step_ok {scopes : List Scope} {fuel : Nat}
    {visiting : List String} {n : String} {tmpl : Template} {v : String}
    (hnv : n ∉ visiting) (hlk : lookupVar scopes n = some tmpl)
    (hv : resolveTemplate scopes fuel (visiting ++ [n]) tmpl = .ok v) :
    resolveTemplate scopes (fuel + 1) visiting [.ref n] = .ok v := by
  rw [resolveTemplate]
  simp only [hnv, if_false, hlk, hv]
  rw [resolveTemplate]
  simp [hnv]

/-- C2: a variable environment with a reference chain A -> B -> A makes
resolution fail with CircularReference, the reported chain being the cycle
and containing both names, from whichever of the two the traversal starts. -/
theorem C2_circular_reference :
    ∀ (scopes : List Scope) (A B : String) (tmplA tmplB : Template)
      (l1 l2 m1 m2 : List Tok),
      A ≠ B →
      lookupVar scopes A = some tmplA →
      lookupVar scopes B = some tmplB →
      tmplA = l1 ++ Tok.ref B :: l2 → (∀ t ∈ l1, ∃ s, t = Tok.lit s) →
      tmplB = m1 ++ Tok.ref A :: m2 → (∀ t ∈ m1, ∃ s, t = Tok.lit s) →
      (resolveEntry scopes [Tok.ref A] =
          .error (.circularReference [A, B, A]) ∧
        A ∈ ([A, B, A] : List String) ∧ B ∈ ([A, B, A] : List String)) ∧
      (resolveEntry scopes [Tok.ref B] =
          .error (.circularReference [B, A, B]) ∧
        A ∈ ([B, A, B] : List String) ∧ B ∈ ([B, A, B] : List String)) := by
  intro scopes A B tmplA tmplB l1 l2 m1 m2 hAB hlkA hlkB hA hlitA hB hlitB
  have hV : 1 ≤ varCount scopes := varCount_pos hlkA
  obtain ⟨V2, hV2⟩ : ∃ v2, varCount scopes = v2 + 1 :=
    ⟨varCount scopes - 1, by omega⟩
  constructor
  · have inner : resolveTemplate scopes V2 ([A] ++ [B]) tmplB =
        .error (.circularReference (cycleFrom [A, B] A)) := by
      rw [hB]
      exact resolveTemplate_lit_error hlitB
        (resolveTemplate_ref_visited (show A ∈ ([A] ++ [B] : List String) by simp))
    have mid : resolveTemplate scopes (V2 + 1) [A] tmplA =
        .error (.circularReference (cycleFrom [A, B] A)) := by
      rw [hA]
      exact resolveTemplate_lit_error hlitA
        (resolveTemplate_ref_step_error (show B ∉ ([A] : List String) by
          simp [Ne.symm hAB]) hlkB inner)
    have top : resolveTemplate scopes (varCount scopes + 1) [] [Tok.ref A] =
        .error (.circularReference (cycleFrom [A, B] A)) := by
      rw [hV2]
      exact resolveTemplate_ref_step_error (by simp) hlkA (by simpa using mid)
    have hcyc : cycleFrom [A, B] A = [A, B, A] := by
      simp [cycleFrom]
    rw [resolveEntry, top, hcyc]
    exact ⟨rfl, by simp, by simp⟩
  · have inner : resolveTemplate scopes V2 ([B] ++ [A]) tmplA =
        .error (.circularReference (cycleFrom [B, A] B)) := by
      rw [hA]
      exact resolveTemplate_lit_error hlitA
        (resolveTemplate_ref_visited (show B ∈ ([B] ++ [A] : List String) by simp))
    have mid : resolveTemplate scopes (V2 + 1) [B] tmplB =
        .error (.circularReference (cycleFrom [B, A] B)) := by
      rw [hB]
      exact resolveTemplate_lit_error hlitB
        (resolveTemplate_ref_step_error (show A ∉ ([B] : List String) by
          simp [hAB]) hlkA inner)
    have top : resolveTemplate scopes (varCount scopes + 1) [] [Tok.ref B] =
        .error (.circularReference (cycleFrom [B, A] B)) := by
      rw [hV2]
      exact resolveTemplate_ref_step_error (by simp) hlkB (by simpa using mid)
    have hcyc : cycleFrom [B, A] B = [B, A, B] := by
      simp [cycleFrom]
    rw [resolveEntry, top, hcyc]
    exact ⟨rfl, by simp, by simp⟩

theorem C2_witness :
    resolveEntry [[("A", [Tok.ref "B"]), ("B", [Tok.ref "A"])]] [Tok.ref "A"] =
      .error (.circularReference ["A", "B", "A"]) ∧
    resolveEntry [[("A", [Tok.ref "B"]), ("B", [Tok.ref "A"])]] [Tok.ref "B"] =
      .error (.circularReference ["B", "A", "B"]) := by
  have h := C2_circular_reference [[("A", [Tok.ref "B"]), ("B", [Tok.ref "A"])]]
    "A" "B" [Tok.ref "B"] [Tok.ref "A"] [] [] [] []
    (by decide) rfl rfl rfl (by simp) rfl (by simp)
  exact ⟨h.1.1, h.2.1⟩

theorem lookupVar_head_found {s : Scope} {rest : List Scope} {n : String}
    {t : Template} (h : s.find? (fun p => p.1 = n) = some (n, t)) :
    lookupVar (s :: rest) n = some t := by
  rw [lookupVar, h]

theorem lookupVar_skip {pre : List Scope} {post : List Scope} {n : String}
    (h : ∀ sc ∈ pre, sc.find? (fun p => p.1 = n) = none) :
    lookupVar (pre ++ post) n = lookupVar post n := by
  induction pre with
  | nil => simp
  | cons s rest ih =>
    rw [List.cons_append, lookupVar, h s (by simp)]
    exact ih (fun sc hsc => h sc (by simp [hsc]))

theorem resolveEntry_single_lit {scopes : List Scope} {n vV : String}
    (hlk : lookupVar scopes n = some [Tok.lit vV]) :
    resolveEntry scopes [Tok.ref n] = .ok vV := by
  rw [resolveEntry]
  have inner : resolveTemplate scopes (varCount scopes) ([] ++ [n])
      [Tok.lit vV] = .ok (vV ++ "") := by
    rw [resolveTemplate, resolveTemplate]
  rw [resolveTemplate_ref_step_ok (by simp) hlk inner]
  simp

/-- C3: a variable defined at both a folder scope and the collection scope
resolves, for a request item directly inside that folder, to the folder's
value (whatever outer scopes say), and, for an item none of whose enclosing
folders define it, to the collection's value; the first scope in the
nearest-first chain that defines the name wins, the value being exactly that
scope's — never a merge. -/
theorem C3_scope_precedence :
    (∀ (collVars globals fvars : Scope) (ancestors : List Scope)
      (fname iname : String) (url : Template) (rest : List FolderNode),
      resolveItems collVars globals ancestors
        (FolderNode.folder fname fvars [FolderNode.item iname url] :: rest) =
        (iname, resolveEntry ((fvars :: ancestors) ++ [collVars, globals]) url) ::
        resolveItems collVars globals ancestors rest) ∧
    (∀ (fvars : Scope) (others : List Scope) (n vF : String),
      fvars.find? (fun p => p.1 = n) = some (n, [Tok.lit vF]) →
      resolveEntry (fvars :: others) [Tok.ref n] = .ok vF) ∧
    (∀ (ancestors : List Scope) (collVars globals : Scope) (n vC : String),
      (∀ sc ∈ ancestors, sc.find? (fun p => p.1 = n) = none) →
      collVars.find? (fun p => p.1 = n) = some (n, [Tok.lit vC]) →
      resolveEntry (ancestors ++ [collVars, globals]) [Tok.ref n] = .ok vC) := by
  refine ⟨fun collVars globals fvars ancestors fname iname url rest => ?_,
    fun fvars others n vF hf => ?_,
    fun ancestors collVars globals n vC hnone hf => ?_⟩
  · rw [resolveItems, resolveItems, resolveItems]
    simp
  · exact resolveEntry_single_lit (lookupVar_head_found hf)
  · refine resolveEntry_single_lit ?_
    rw [lookupVar_skip hnone, lookupVar, hf]

theorem C3_witness :
    (resolveItems [("color", [Tok.lit "blue"])] []
      [] [FolderNode.folder "F" [("color", [Tok.lit "red"])]
            [FolderNode.item "req" [Tok.ref "color"]]] =
      [("req", resolveEntry ([("color", [Tok.lit "red"])] ::
        [] ++ [[("color", [Tok.lit "blue"])], []]) [Tok.ref "color"])]) ∧
    (resolveEntry [[("color", [Tok.lit "red"])], [("color", [Tok.lit "blue"])], []]
      [Tok.ref "color"] = .ok "red") ∧
    (resolveEntry [[("other", [Tok.lit "x"])], [("color", [Tok.lit "blue"])], []]
      [Tok.ref "color"] = .ok "blue") := by
  refine ⟨?_, ?_, ?_⟩
  · have h := C3_scope_precedence.1 [("color", [Tok.lit "blue"])] []
      [("color", [Tok.lit "red"])] [] "F" "req" [Tok.ref "color"] []
    rw [h, resolveItems]
  · exact C3_scope_precedence.2.1 [("color", [Tok.lit "red"])]
      [[("color", [Tok.lit "blue"])], []] "color" "red" rfl
  · exact C3_scope_precedence.2.2 [[("other", [Tok.lit "x"])]]
      [("color", [Tok.lit "blue"])] [] "color" "blue"
      (by intro sc hsc; simp at hsc; subst hsc; rfl) rfl

/-! ## Sanitization: character classes -/

/-- A keyword fit for the sanitization patterns: non-empty, ASCII lowercase
letters only. The four keywords satisfy it. -/
def kwOK (kw : List Char) : Prop :=
  kw ≠ [] ∧ ∀ c ∈ kw, lowerAZ c = true

theorem char_eq_of_toNat_eq {a b : Char} (h : a.toNat = b.toNat) : a = b := by
  apply Char.ext
  exact UInt32.toNat.inj h

theorem ofNat_toNat {n : Nat} (h : n < 0xd800) : (Char.ofNat n).toNat = n := by
  have hv : Nat.isValidChar n := Or.inl h
  simp [Char.ofNat, Char.ofNatAux, Char.toNat, hv, UInt32.toNat, BitVec.toNat_ofNatLt]

theorem lc_toNat (c : Char) :
    (lc c).toNat = if 65 ≤ c.toNat ∧ c.toNat ≤ 90 then c.toNat + 32 else c.toNat := by
  unfold lc
  split
  · rename_i hc
    rw [ofNat_toNat (by omega)]
  · rfl

theorem lc_lower {c : Char} (h : lowerAZ c = true) : lc c = c := by
  unfold lc
  rw [if_neg]
  simp only [lowerAZ, Bool.and_eq_true, decide_eq_true_eq] at h
  omega

/-- A character ci-equal to a lowercase letter folds to that letter. -/
theorem lc_of_letter {k c : Char} (hk : lowerAZ k = true) (h : lc c = lc k) :
    (lc c).toNat = k.toNat := by
  simp only [lowerAZ, Bool.and_eq_true, decide_eq_true_eq] at hk
  rw [h, lc_toNat, if_neg (by omega)]

theorem lc_letter_range {k c : Char} (hk : lowerAZ k = true) (h : lc c = lc k) :
    65 ≤ c.toNat ∧ c.toNat ≤ 122 := by
  have h2 := lc_of_letter hk h
  rw [lc_toNat] at h2
  simp only [lowerAZ, Bool.and_eq_true, decide_eq_true_eq] at hk
  split at h2 <;> omega

theorem letter_not_ws {k c : Char} (hk : lowerAZ k = true) (h : lc c = lc k) :
    jsWS c = false := by
  have hr := lc_letter_range hk h
  simp only [jsWS, Bool.or_eq_false_iff, Bool.and_eq_false_iff,
    decide_eq_false_iff_not, not_le]
  omega

theorem letter_not_sep {k c : Char} (hk : lowerAZ k = true) (h : lc c = lc k) :
    isSep c = false := by
  have hr := lc_letter_range hk h
  simp only [isSep, Bool.or_eq_false_iff, decide_eq_false_iff_not]
  omega

theorem sep_not_ws {c : Char} (h : isSep c = true) : jsWS c = false := by
  simp only [isSep, Bool.or_eq_true, decide_eq_true_eq] at h
  simp only [jsWS, Bool.or_eq_false_iff, Bool.and_eq_false_iff,
    decide_eq_false_iff_not, not_le]
  omega

theorem sep_lc {c : Char} (h : isSep c = true) : lc c = c := by
  simp only [isSep, Bool.or_eq_true, decide_eq_true_eq] at h
  unfold lc
  rw [if_neg (by omega)]

theorem ws_lc {c : Char} (h : jsWS c = true) : lc c = c := by
  simp only [jsWS, Bool.or_eq_true, Bool.and_eq_true, decide_eq_true_eq] at h
  unfold lc
  rw [if_neg (by omega)]

theorem sep_ne_lc_letter {k c d : Char} (hk : lowerAZ k = true)
    (h : lc c = lc k) (hd : isSep d = true) : lc d ≠ lc c := by
  rw [sep_lc hd]
  intro he
  have h2 : d.toNat = (lc c).toNat := by rw [he]
  rw [lc_of_letter hk h] at h2
  simp only [isSep, Bool.or_eq_true, decide_eq_true_eq] at hd
  simp only [lowerAZ, Bool.and_eq_true, decide_eq_true_eq] at hk
  omega

theorem ws_ne_lc_letter {k c d : Char} (hk : lowerAZ k = true)
    (h : lc c = lc k) (hd : jsWS d = true) : lc d ≠ lc c := by
  rw [ws_lc hd]
  intro he
  have h2 : d.toNat = (lc c).toNat := by rw [he]
  rw [lc_of_letter hk h] at h2
  simp only [jsWS, Bool.or_eq_true, Bool.and_eq_true, decide_eq_true_eq] at hd
  simp only [lowerAZ, Bool.and_eq_true, decide_eq_true_eq] at hk
  omega

theorem star_ne_lc_letter {k c : Char} (hk : lowerAZ k = true)
    (h : lc c = lc k) : lc '*' ≠ lc c := by
  have hs : lc '*' = '*' := by decide
  rw [hs]
  intro he
  have h2 : ('*' : Char).toNat = (lc c).toNat := by rw [he]
  rw [lc_of_letter hk h] at h2
  simp only [lowerAZ, Bool.and_eq_true, decide_eq_true_eq] at hk
  have : ('*' : Char).toNat = 42 := by decide
  omega

/-! ## Sanitization: scanner characterizations -/

theorem matchCI_some_iff {kw s r : List Char} :
    matchCI kw s = some r ↔ ∃ p, s = p ++ r ∧ p.map lc = kw.map lc := by
  induction kw generalizing s with
  | nil =>
    simp only [matchCI, Option.some.injEq, List.map_nil, List.map_eq_nil_iff]
    constructor
    · intro h
      exact ⟨[], by simp [h], rfl⟩
    · intro ⟨p, hs, hp⟩
      subst hp
      simpa using hs
  | cons k ks ih =>
    cases s with
    | nil =>
      simp only [matchCI]
      constructor
      · intro h
        exact absurd h (by simp)
      · intro ⟨p, hs, hp⟩
        have : p ≠ [] := by
          intro hpe
          subst hpe
          simp at hp
        cases p with
        | nil => exact absurd rfl this
        | cons a b => simp at hs
    | cons c cs =>
      simp only [matchCI]
      by_cases hc : lc c = lc k
      · rw [if_pos hc, ih]
        constructor
        · intro ⟨p, hcs, hp⟩
          exact ⟨c :: p, by simp [hcs], by simp [hp, hc]⟩
        · intro ⟨p, hs, hp⟩
          cases p with
          | nil => simp at hp
          | cons a b =>
            simp only [List.cons_append, List.cons.injEq] at hs
            simp only [List.map_cons, List.cons.injEq] at hp
            exact ⟨b, hs.2, by simp [hp.2]⟩
      · rw [if_neg hc]
        constructor
        · intro h
          exact absurd h (by simp)
        · intro ⟨p, hs, hp⟩
          cases p with
          | nil => simp at hp
          | cons a b =>
            simp only [List.cons_append, List.cons.injEq] at hs
            simp only [List.map_cons, List.cons.injEq] at hp
            exact absurd (hs.1 ▸ hp.1) hc

theorem allWS_dropWhile_append {w t : List Char} (hw : ∀ x ∈ w, jsWS x = true) :
    (w ++ t).dropWhile jsWS = t.dropWhile jsWS := by
  induction w with
  | nil => rfl
  | cons a b ih =>
    rw [List.cons_append, List.dropWhile_cons, if_pos (hw a (by simp))]
    exact ih (fun x hx => hw x (by simp [hx]))

theorem dropWhile_of_head_false {p : Char → Bool} {t : List Char}
    (h : t = [] ∨ p t.head! = false) : t.dropWhile p = t := by
  cases t with
  | nil => rfl
  | cons a b =>
    simp only [List.head!] at h
    rw [List.dropWhile_cons, if_neg]
    rcases h with h | h
    · simp at h
    · simp [h]

theorem takeWhile_run (p : Char → Bool) {v r : List Char}
    (hv : ∀ x ∈ v, p x = true) (hr : r = [] ∨ p r.head! = false) :
    (v ++ r).takeWhile p = v ∧ (v ++ r).dropWhile p = r := by
  induction v with
  | nil =>
    constructor
    · cases r with
      | nil => rfl
      | cons a b =>
        simp only [List.head!] at hr
        rw [List.nil_append, List.takeWhile_cons, if_neg]
        rcases hr with h | h
        · simp at h
        · simp [h]
    · simpa using dropWhile_of_head_false hr
  | cons a b ih =>
    have := ih (fun x hx => hv x (by simp [hx]))
    constructor
    · rw [List.cons_append, List.takeWhile_cons, if_pos (hv a (by simp)), this.1]
    · rw [List.cons_append, List.dropWhile_cons, if_pos (hv a (by simp)), this.2]

/-- The full shape of a successful pattern match: a case-insensitive image
of the keyword, a separator, a whitespace run, the non-empty non-whitespace
value, and a remainder that starts with whitespace if at all. -/
theorem matchPat_some_iff {kw s v r : List Char} (hkw : kw ≠ []) :
    matchPat kw s = some (v, r) ↔
      ∃ p c w, s = p ++ c :: (w ++ (v ++ r)) ∧ p.map lc = kw.map lc ∧
        isSep c = true ∧ (∀ x ∈ w, jsWS x = true) ∧ v ≠ [] ∧
        (∀ x ∈ v, jsWS x = false) ∧ headWS r := by
  constructor
  · intro h
    unfold matchPat at h
    cases hci : matchCI kw s with
    | none => rw [hci] at h; exact absurd h (by simp)
    | some s1 =>
      rw [hci] at h
      obtain ⟨p, hs, hp⟩ := matchCI_some_iff.mp hci
      cases s1 with
      | nil => exact absurd h (by simp)
      | cons c s2 =>
        simp only at h
        by_cases hsep : isSep c
        · rw [if_pos hsep] at h
          by_cases hemp : (s2.dropWhile jsWS).takeWhile (fun x => !(jsWS x)) = []
          · rw [if_pos hemp] at h
            exact absurd h (by simp)
          · rw [if_neg hemp] at h
            simp only [Option.some.injEq, Prod.mk.injEq] at h
            obtain ⟨hv, hr⟩ := h
            refine ⟨p, c, s2.takeWhile jsWS, ?_, hp, hsep, ?_, ?_, ?_, ?_⟩
            · rw [hs]
              congr 1
              congr 1
              rw [← hv, ← hr]
              rw [List.takeWhile_append_dropWhile, List.takeWhile_append_dropWhile]
            · intro x hx
              exact List.mem_takeWhile_imp hx
            · rw [← hv]; exact hemp
            · intro x hx
              rw [← hv] at hx
              have := List.mem_takeWhile_imp hx
              simpa using this
            · rw [← hr]
              cases hd : (s2.dropWhile jsWS).dropWhile (fun x => !(jsWS x)) with
              | nil => trivial
              | cons a b =>
                show jsWS a = true
                have := List.head?_dropWhile_not (fun x => !(jsWS x))
                  (s2.dropWhile jsWS)
                rw [hd] at this
                simpa using this
        · rw [if_neg hsep] at h
          exact absurd h (by simp)
  · intro ⟨p, c, w, hs, hp, hsep, hw, hvne, hv, hr⟩
    unfold matchPat
    have hci : matchCI kw s = some (c :: (w ++ (v ++ r))) :=
      matchCI_some_iff.mpr ⟨p, hs, hp⟩
    rw [hci]
    simp only [if_pos hsep]
    have hdw : (w ++ (v ++ r)).dropWhile jsWS = v ++ r := by
      rw [allWS_dropWhile_append hw]
      apply dropWhile_of_head_false
      cases v with
      | nil => exact absurd rfl hvne
      | cons a b =>
        right
        simpa using hv a (by simp)
    have hrend : r = [] ∨ (fun x => !(jsWS x)) r.head! = false := by
      cases r with
      | nil => exact Or.inl rfl
      | cons a b =>
        refine Or.inr ?_
        have ha : jsWS a = true := hr
        simp [List.head!, ha]
    have hvp : ∀ x ∈ v, (fun x => !(jsWS x)) x = true := by
      intro x hx
      simp [hv x hx]
    have hrun := takeWhile_run (fun x => !(jsWS x)) hvp hrend
    simp only [hdw]
    rw [hrun.1, hrun.2, if_neg hvne]

/-- A maximal non-whitespace run decomposition is unique. -/
theorem nonws_run_unique {a b c d : List Char}
    (he : a ++ b = c ++ d)
    (ha : ∀ x ∈ a, jsWS x = false) (hb : headWS b)
    (hc : ∀ x ∈ c, jsWS x = false) (hd : headWS d) :
    a = c ∧ b = d := by
  induction a generalizing c with
  | nil =>
    cases c with
    | nil => simpa using he
    | cons y c2 =>
      simp only [List.nil_append] at he
      subst he
      have hy : jsWS y = false := hc y (by simp)
      have ht : jsWS y = true := hb
      rw [hy] at ht
      exact absurd ht (by simp)
  | cons x a2 ih =>
    cases c with
    | nil =>
      simp only [List.nil_append] at he
      subst he
      have hx : jsWS x = false := ha x (by simp)
      have ht : jsWS x = true := hd
      rw [hx] at ht
      exact absurd ht (by simp)
    | cons y c2 =>
      simp only [List.cons_append, List.cons.injEq] at he
      obtain ⟨hxy, he2⟩ := he
      subst hxy
      have := ih he2 (fun z hz => ha z (by simp [hz]))
        (fun z hz => hc z (by simp [hz]))
      exact ⟨by rw [this.1], this.2⟩

/-- No match can start at a character that does not fold to the keyword's
first letter. -/
theorem matchPat_none_head {k : Char} {ks : List Char} {c : Char} {t : List Char}
    (h : lc c ≠ lc k) : matchPat (k :: ks) (c :: t) = none := by
  unfold matchPat
  rw [show matchCI (k :: ks) (c :: t) = none from by
    simp only [matchCI, if_neg h]]

/-- Characters case-insensitively matching a lowercase-letter keyword are
neither whitespace nor separators. -/
theorem ciEq_letters {kw : List Char} (hk : ∀ c ∈ kw, lowerAZ c = true)
    {p : List Char} (hp : p.map lc = kw.map lc) :
    ∀ x ∈ p, jsWS x = false ∧ isSep x = false := by
  induction kw generalizing p with
  | nil =>
    have : p = [] := by simpa using congrArg List.length hp
    subst this
    intro x hx
    cases hx
  | cons c2 kt ih =>
    cases p with
    | nil => simp at hp
    | cons x pt =>
      simp only [List.map_cons, List.cons.injEq] at hp
      intro y hy
      rcases List.mem_cons.mp hy with hy | hy
      · subst hy
        exact ⟨letter_not_ws (hk c2 (by simp)) hp.1,
          letter_not_sep (hk c2 (by simp)) hp.1⟩
      · exact ih (fun c hc => hk c (by simp [hc])) hp.2 y hy

theorem replAllF_succ_eq (k : Char) (ks : List Char) (fuel : Nat) (c : Char)
    (cs : List Char) :
    replAllF k ks (fuel + 1) (c :: cs) =
      match matchPat (k :: ks) (c :: cs) with
      | some (_, rest) => k :: ks ++ '=' :: stars ++ replAllF k ks fuel rest
      | none => c :: replAllF k ks fuel cs := rfl

theorem replAllF_fuel_irrel (k : Char) (ks : List Char) :
    ∀ (f1 f2 : Nat) (s : List Char), s.length ≤ f1 → s.length ≤ f2 →
      replAllF k ks f1 s = replAllF k ks f2 s := by
  intro f1
  induction f1 with
  | zero =>
    intro f2 s h1 _
    have : s = [] := by
      cases s with
      | nil => rfl
      | cons a b => simp at h1
    subst this
    cases f2 <;> rfl
  | succ g1 ih =>
    intro f2 s h1 h2
    cases s with
    | nil => cases f2 <;> rfl
    | cons c cs =>
      cases f2 with
      | zero => simp at h2
      | succ g2 =>
        rw [replAllF_succ_eq, replAllF_succ_eq]
        cases hm : matchPat (k :: ks) (c :: cs) with
        | some p =>
          obtain ⟨v, rest⟩ := p
          have hlt := matchPat_rest_lt hm
          simp only [List.length_cons] at hlt h1 h2
          simp only
          rw [ih g2 rest (by omega) (by omega)]
        | none =>
          simp only [List.length_cons] at h1 h2
          simp only
          rw [ih g2 cs (by omega) (by omega)]

theorem replAll_nil (k : Char) (ks : List Char) : replAll k ks [] = [] := rfl

theorem replAll_cons_none {k : Char} {ks : List Char} {c : Char} {cs : List Char}
    (h : matchPat (k :: ks) (c :: cs) = none) :
    replAll k ks (c :: cs) = c :: replAll k ks cs := by
  unfold replAll
  show replAllF k ks (cs.length + 1) (c :: cs) = _
  rw [replAllF_succ_eq, h]

theorem replAll_cons_some {k : Char} {ks : List Char} {c : Char} {cs : List Char}
    {v rest : List Char} (h : matchPat (k :: ks) (c :: cs) = some (v, rest)) :
    replAll k ks (c :: cs) = (k :: ks) ++ '=' :: stars ++ replAll k ks rest := by
  unfold replAll
  show replAllF k ks (cs.length + 1) (c :: cs) = _
  rw [replAllF_succ_eq, h]
  have hlt := matchPat_rest_lt h
  simp only [List.length_cons] at hlt
  simp only
  rw [replAllF_fuel_irrel k ks cs.length rest.length rest (by omega) (by omega)]

/-- A replace pass never changes a whitespace head. -/
theorem replAll_headWS {k : Char} {ks : List Char} (hk : lowerAZ k = true)
    {s : List Char} (h : headWS s) : headWS (replAll k ks s) := by
  cases s with
  | nil => trivial
  | cons c cs =>
    have hc : jsWS c = true := h
    have hne : lc c ≠ lc k :=
      ws_ne_lc_letter hk (lc_lower hk ▸ rfl) hc
    rw [replAll_cons_none (matchPat_none_head hne)]
    exact hc

/-- Either a pass changes nothing, or the scanned string splits at its first
match, and the output is the prefix, the replacement text, and the processed
remainder. -/
theorem replAll_decomp (k : Char) (ks : List Char) (s : List Char) :
    replAll k ks s = s ∨
    ∃ pre m v r, s = pre ++ m ∧ matchPat (k :: ks) m = some (v, r) ∧
      replAll k ks s = pre ++ ((k :: ks) ++ '=' :: stars) ++ replAll k ks r := by
  induction s with
  | nil => exact Or.inl rfl
  | cons c cs ih =>
    cases hm : matchPat (k :: ks) (c :: cs) with
    | some p =>
      obtain ⟨v, r⟩ := p
      refine Or.inr ⟨[], c :: cs, v, r, rfl, hm, ?_⟩
      rw [replAll_cons_some hm]
      simp
    | none =>
      rcases ih with hsame | ⟨pre, m, v, r, hcs, hm2, hout⟩
      · left
        rw [replAll_cons_none hm, hsame]
      · refine Or.inr ⟨c :: pre, m, v, r, by simp [hcs], hm2, ?_⟩
        rw [replAll_cons_none hm, hout]
        simp

/-- Build the match the original string has wherever the rewritten one
matched through the replacement: the original's own keyword, separator and
value supply a non-empty non-whitespace run whose value contains a
separator. -/
theorem orig_match {k2 : Char} {ks2 : List Char} {p1 : List Char} {c1 : Char}
    {w1 f pre m pm : List Char} {c0 : Char} {w0 v0 r0 : List Char}
    (hpre : pre = p1 ++ c1 :: (w1 ++ f))
    (hp1 : p1.map lc = (k2 :: ks2).map lc) (hsep1 : isSep c1 = true)
    (hw1 : ∀ x ∈ w1, jsWS x = true) (hf : ∀ x ∈ f, jsWS x = false)
    (hmdec : m = pm ++ c0 :: (w0 ++ (v0 ++ r0)))
    (hpm : ∀ x ∈ pm, jsWS x = false) (hpmne : pm ≠ [])
    (hsep0 : isSep c0 = true) (hw0 : ∀ x ∈ w0, jsWS x = true)
    (hv0 : ∀ x ∈ v0, jsWS x = false) (hr0 : headWS r0) :
    ∃ v2 r2, matchPat (k2 :: ks2) (pre ++ m) = some (v2, r2) ∧
      ∃ x ∈ v2, isSep x = true := by
  cases hw0e : w0 with
  | nil =>
    subst hw0e
    refine ⟨f ++ pm ++ c0 :: v0, r0,
      (matchPat_some_iff (by simp)).mpr
        ⟨p1, c1, w1, ?_, hp1, hsep1, hw1, by simp, ?_, ?_⟩,
      c0, by simp, hsep0⟩
    · rw [hpre, hmdec]
      simp
    · intro x hx
      simp only [List.append_assoc, List.mem_append, List.mem_cons] at hx
      rcases hx with hx | hx | hx | hx
      · exact hf x hx
      · exact hpm x hx
      · subst hx; exact sep_not_ws hsep0
      · exact hv0 x hx
    · exact hr0
  | cons h0 t0 =>
    refine ⟨f ++ pm ++ [c0], w0 ++ (v0 ++ r0),
      (matchPat_some_iff (by simp)).mpr
        ⟨p1, c1, w1, ?_, hp1, hsep1, hw1, by simp, ?_, ?_⟩,
      c0, by simp, hsep0⟩
    · rw [hpre, hmdec]
      simp
    · intro x hx
      simp only [List.append_assoc, List.mem_append, List.mem_cons] at hx
      rcases hx with hx | hx | hx
      · exact hf x hx
      · exact hpm x hx
      · have hx2 : x = c0 := by simpa using hx
        subst hx2
        exact sep_not_ws hsep0
    · rw [hw0e]
      exact hw0 h0 (by simp [hw0e])

/-- Where the rewritten string matches a keyword's pattern, either the value
is the replacement `***`, or the original string matches with the same value
(the match lay before the replacement), or the original matches with a value
that contains a separator (the match ran into the replaced region) — which a
clean original rules out. -/
theorem back_lemma {k : Char} {ks : List Char} {k2 : Char} {ks2 : List Char}
    (hk : ∀ c ∈ k :: ks, lowerAZ c = true)
    (hk2 : ∀ c ∈ k2 :: ks2, lowerAZ c = true)
    {pre m v0 r0 : List Char}
    (hm : matchPat (k :: ks) m = some (v0, r0))
    {R : List Char} (hR : headWS R)
    {v r : List Char}
    (hmatch : matchPat (k2 :: ks2)
      (pre ++ ((k :: ks) ++ '=' :: stars) ++ R) = some (v, r)) :
    v = stars ∨
    (∃ r2, matchPat (k2 :: ks2) (pre ++ m) = some (v, r2)) ∨
    (∃ v2 r2, matchPat (k2 :: ks2) (pre ++ m) = some (v2, r2) ∧
      ∃ x ∈ v2, isSep x = true) := by
  obtain ⟨p1, c1, w1, E, hp1, hsep1, hw1, hvne, hvns, hrr⟩ :=
    (matchPat_some_iff (show (k2 :: ks2) ≠ [] by simp)).mp hmatch
  obtain ⟨pm, c0, w0, Em, hpm, hsep0, hw0, hv0ne, hv0ns, hr0⟩ :=
    (matchPat_some_iff (show (k :: ks) ≠ [] by simp)).mp hm
  have hpmws : ∀ x ∈ pm, jsWS x = false := fun x hx => (ciEq_letters hk hpm x hx).1
  have hpmne : pm ≠ [] := by
    intro he
    subst he
    have := congrArg List.length hpm
    simp at this
  have hp1facts := ciEq_letters hk2 hp1
  have hkletter : jsWS k = false := letter_not_ws (hk k (by simp)) rfl
  have hstarsws : ∀ x ∈ stars, jsWS x = false := by decide
  -- () the shared argument: if the match's whitespace run and value sit
  -- exactly on the replacement's `***`, the value is `***`.
  have key : ∀ wx : List Char, (∀ x ∈ wx, jsWS x = true) →
      wx ++ (v ++ r) = stars ++ R → v = stars := by
    intro wx hwx hkey
    have hwxnil : wx = [] := by
      cases wx with
      | nil => rfl
      | cons h t =>
        have : h = '*' := by
          have := congrArg (fun l => l.head?) hkey
          simpa [stars] using this
        subst this
        have := hwx '*' (by simp)
        exact absurd this (by decide)
    subst hwxnil
    simp only [List.nil_append] at hkey
    exact (nonws_run_unique hkey hvns hrr hstarsws hR).1
  have E2 : pre ++ ((k :: ks) ++ '=' :: (stars ++ R)) =
      p1 ++ c1 :: (w1 ++ (v ++ r)) := by
    rw [← E]
    simp
  rcases List.append_eq_append_iff.mp E2 with ⟨e, hpe, hze⟩ | ⟨e, hpe, hze⟩
  · -- the matched keyword image p1 reaches to or past the end of pre
    have hef : ∀ x ∈ e, jsWS x = false ∧ isSep x = false := by
      intro x hx
      exact hp1facts x (by rw [hpe]; exact List.mem_append_right _ hx)
    rcases List.append_eq_append_iff.mp hze with ⟨f, hef2, hzf⟩ | ⟨f, hef2, hzf⟩
    · -- e extends past the keyword of the replacement
      cases f with
      | nil =>
        simp only [List.append_nil] at hef2
        rw [List.nil_append] at hzf
        have hc1 : '=' = c1 := by
          have := congrArg (fun l => l.head?) hzf
          simpa using this
        have hrest : stars ++ R = w1 ++ (v ++ r) := by
          have := congrArg (fun l => l.tail) hzf
          simpa using this
        exact Or.inl (key w1 hw1 hrest.symm)
      | cons fh ft =>
        have hfh : fh = '=' := by
          have := congrArg (fun l => l.head?) hzf
          simpa using this.symm
        have hmem : fh ∈ e := by
          rw [hef2]
          exact List.mem_append_right _ (by simp)
        have := (hef fh hmem).2
        rw [hfh] at this
        exact absurd this (by decide)
    · -- e is a prefix of the replacement's keyword
      cases f with
      | nil =>
        simp only [List.append_nil] at hef2
        rw [List.nil_append] at hzf
        have hc1 : c1 = '=' := by
          have := congrArg (fun l => l.head?) hzf
          simpa using this
        have hrest : w1 ++ (v ++ r) = stars ++ R := by
          have := congrArg (fun l => l.tail) hzf
          simpa using this
        exact Or.inl (key w1 hw1 hrest)
      | cons fh ft =>
        have hc1 : c1 = fh := by
          have := congrArg (fun l => l.head?) hzf
          simpa using this
        have hfmem : fh ∈ k :: ks := by
          rw [hef2]
          exact List.mem_append_right _ (by simp)
        have : isSep fh = false := letter_not_sep (hk fh hfmem) rfl
        rw [← hc1] at this
        rw [this] at hsep1
        exact absurd hsep1 (by simp)
  · -- p1 lies inside pre
    cases e with
    | nil =>
      rw [List.append_nil] at hpe
      rw [List.nil_append] at hze
      have hc1 : c1 = k := by
        have := congrArg (fun l => l.head?) hze
        simpa using this
      have : isSep k = false := letter_not_sep (hk k (by simp)) rfl
      rw [hc1, this] at hsep1
      exact absurd hsep1 (by simp)
    | cons eh et =>
      have heh : c1 = eh := by
        have := congrArg (fun l => l.head?) hze
        simpa using this
      subst heh
      have hze2 : w1 ++ (v ++ r) = et ++ ((k :: ks) ++ '=' :: (stars ++ R)) := by
        have := congrArg (fun l => l.tail) hze
        simpa using this
      rcases List.append_eq_append_iff.mp hze2 with ⟨f, hetf, hvf⟩ | ⟨f, hetf, hvf⟩
      · -- the whitespace run w1 ends inside pre; f is what remains of pre
        rcases List.append_eq_append_iff.mp hvf with ⟨g, hfg, hrg⟩ | ⟨g, hfg, hrg⟩
        · -- the value v also ends inside pre
          cases g with
          | nil =>
            rw [List.append_nil] at hfg
            rw [List.nil_append] at hrg
            have : jsWS k = true := by
              have := hrr
              rw [hrg] at this
              exact this
            rw [hkletter] at this
            exact absurd this (by simp)
          | cons gh gt =>
            refine Or.inr (Or.inl ⟨(gh :: gt) ++ m, ?_⟩)
            apply (matchPat_some_iff (show (k2 :: ks2) ≠ [] by simp)).mpr
            refine ⟨p1, c1, w1, ?_, hp1, hsep1, hw1, hvne, hvns, ?_⟩
            · rw [hpe, hetf, hfg]
              simp
            · have : jsWS gh = true := by
                have := hrr
                rw [hrg] at this
                exact this
              exact this
        · -- the value v runs into the replacement
          cases g with
          | nil =>
            rw [List.append_nil] at hfg
            rw [List.nil_append] at hrg
            have : jsWS k = true := by
              have := hrr
              rw [← hrg] at this
              exact this
            rw [hkletter] at this
            exact absurd this (by simp)
          | cons gh gt =>
            refine Or.inr (Or.inr ?_)
            exact orig_match (by rw [hpe, hetf]) hp1 hsep1 hw1
              (fun x hx => hvns x (by rw [hfg]; exact List.mem_append_left _ hx))
              Em hpmws hpmne hsep0 hw0 hv0ns hr0
      · -- the whitespace run w1 reaches the end of pre; f is its overhang
        cases f with
        | nil =>
          rw [List.append_nil] at hetf
          rw [List.nil_append] at hvf
          refine Or.inr (Or.inr ?_)
          have hpre2 : pre = p1 ++ c1 :: (w1 ++ []) := by
            rw [hpe, hetf]
            simp
          exact @orig_match k2 ks2 p1 c1 w1 [] pre m pm c0 w0 v0 r0 hpre2
            hp1 hsep1 hw1 (by simp) Em hpmws hpmne hsep0 hw0 hv0ns hr0
        | cons fh ft =>
          have hfh : fh = k := by
            have := congrArg (fun l => l.head?) hvf
            simpa using this.symm
          have hfmem : fh ∈ w1 := by
            rw [hetf]
            exact List.mem_append_right _ (by simp)
          have := hw1 fh hfmem
          rw [hfh, hkletter] at this
          exact absurd this (by simp)

/-! ## Sanitization: cleanliness of a pass -/

theorem safeAt_nil {kw : List Char} : SafeAt kw [] := by
  intro v r h
  unfold matchPat at h
  cases kw with
  | nil => simp [matchCI] at h
  | cons k ks => simp [matchCI] at h

theorem cleanL_nil {kw : List Char} : CleanL kw [] := by
  intro i
  simp only [List.drop_nil]
  exact safeAt_nil

theorem cleanL_cons {kw : List Char} {c : Char} {t : List Char} :
    CleanL kw (c :: t) ↔ SafeAt kw (c :: t) ∧ CleanL kw t := by
  constructor
  · intro h
    refine ⟨h 0, fun i => ?_⟩
    have := h (i + 1)
    simpa using this
  · intro ⟨h0, ht⟩ i
    cases i with
    | zero => simpa using h0
    | succ j => simpa using ht j

theorem cleanL_of_suffix {kw a t s : List Char} (hs : s = a ++ t)
    (h : CleanL kw s) : CleanL kw t := by
  intro i
  have := h (a.length + i)
  have hnil : a.drop (a.length + i) = [] := List.drop_eq_nil_of_le (by omega)
  rw [hs, List.drop_append_eq_append_drop, hnil] at this
  simpa using this

/-- A maximal whitespace run followed by a value against `***` followed by a
whitespace-headed tail: the value is `***`. -/
theorem star_run_value {w1 v r R : List Char}
    (hw1 : ∀ x ∈ w1, jsWS x = true) (hvns : ∀ x ∈ v, jsWS x = false)
    (hrr : headWS r) (hR : headWS R)
    (hkey : w1 ++ (v ++ r) = stars ++ R) : v = stars := by
  have hstarsws : ∀ x ∈ stars, jsWS x = false := by decide
  have hwnil : w1 = [] := by
    cases w1 with
    | nil => rfl
    | cons h t =>
      have : h = '*' := by
        have := congrArg (fun l => l.head?) hkey
        simpa [stars] using this
      subst this
      have := hw1 '*' (by simp)
      exact absurd this (by decide)
  subst hwnil
  simp only [List.nil_append] at hkey
  exact (nonws_run_unique hkey hvns hrr hstarsws hR).1

/-- Any suffix of the replacement text that still carries the separator is
safe: matching on it yields the value `***` or nothing. -/
theorem safeAt_kwsuffix {k2 : Char} {ks2 : List Char}
    (hk2 : ∀ c ∈ k2 :: ks2, lowerAZ c = true)
    {e : List Char} (he : ∀ x ∈ e, jsWS x = false ∧ isSep x = false)
    {R : List Char} (hR : headWS R) :
    SafeAt (k2 :: ks2) (e ++ '=' :: (stars ++ R)) := by
  intro v r hmatch
  obtain ⟨p1, c1, w1, E, hp1, hsep1, hw1, hvne, hvns, hrr⟩ :=
    (matchPat_some_iff (show (k2 :: ks2) ≠ [] by simp)).mp hmatch
  have hp1facts := ciEq_letters hk2 hp1
  rcases List.append_eq_append_iff.mp E with ⟨f, hef, hzf⟩ | ⟨f, hef, hzf⟩
  · -- p1 = e ++ f
    cases f with
    | nil =>
      simp only [List.append_nil] at hef
      rw [List.nil_append] at hzf
      have hc1 : '=' = c1 := by
        have := congrArg (fun l => l.head?) hzf
        simpa using this
      have hrest : stars ++ R = w1 ++ (v ++ r) := by
        have := congrArg (fun l => l.tail) hzf
        simpa using this
      exact star_run_value hw1 hvns hrr hR hrest.symm
    | cons fh ft =>
      have hfh : fh = '=' := by
        have := congrArg (fun l => l.head?) hzf
        simpa using this.symm
      have hmem : fh ∈ p1 := by
        rw [hef]
        exact List.mem_append_right _ (by simp)
      have := (hp1facts fh hmem).2
      rw [hfh] at this
      exact absurd this (by decide)
  · -- e = p1 ++ f
    cases f with
    | nil =>
      simp only [List.append_nil] at hef
      rw [List.nil_append] at hzf
      have hc1 : c1 = '=' := by
        have := congrArg (fun l => l.head?) hzf
        simpa using this
      have hrest : w1 ++ (v ++ r) = stars ++ R := by
        have := congrArg (fun l => l.tail) hzf
        simpa using this
      exact star_run_value hw1 hvns hrr hR hrest
    | cons fh ft =>
      have hc1 : c1 = fh := by
        have := congrArg (fun l => l.head?) hzf
        simpa using this
      have hmem : fh ∈ e := by
        rw [hef]
        exact List.mem_append_right _ (by simp)
      have := (he fh hmem).2
      rw [← hc1] at this
      rw [this] at hsep1
      exact absurd hsep1 (by simp)

theorem cleanL_append {kw : List Char} {a b : List Char}
    (ha : ∀ a1 a2, a = a1 ++ a2 → a2 ≠ [] → SafeAt kw (a2 ++ b))
    (hb : CleanL kw b) : CleanL kw (a ++ b) := by
  intro i
  by_cases hi : i < a.length
  · rw [List.drop_append_eq_append_drop]
    have hd : b.drop (i - a.length) = b := by
      rw [Nat.sub_eq_zero_of_le (by omega)]
      rfl
    rw [hd]
    refine ha (a.take i) (a.drop i) (by simp) ?_
    intro he
    have := congrArg List.length he
    simp at this
    omega
  · rw [List.drop_append_eq_append_drop]
    have hd : a.drop i = [] := by
      rw [List.drop_eq_nil_iff]
      omega
    rw [hd, List.nil_append]
    exact hb (i - a.length)

/-- The replacement text prefixed to a clean whitespace-headed remainder is
clean everywhere. -/
theorem cleanL_Z {k : Char} {ks : List Char} {k2 : Char} {ks2 : List Char}
    (hk : ∀ c ∈ k :: ks, lowerAZ c = true)
    (hk2 : ∀ c ∈ k2 :: ks2, lowerAZ c = true)
    {R : List Char} (hR : headWS R) (hcl : CleanL (k2 :: ks2) R) :
    CleanL (k2 :: ks2) (((k :: ks) ++ '=' :: stars) ++ R) := by
  refine cleanL_append ?_ hcl
  intro z1 z2 hz hne
  rcases List.append_eq_append_iff.mp hz.symm with ⟨e, hze, hse⟩ | ⟨e, hze, hse⟩
  · -- z2 = e ++ '=' :: stars, with k :: ks = z1 ++ e
    have hlets : ∀ x ∈ e, jsWS x = false ∧ isSep x = false := by
      intro x hx
      have hmem : x ∈ k :: ks := by
        rw [hze]
        exact List.mem_append_right _ hx
      exact ⟨letter_not_ws (hk x hmem) rfl, letter_not_sep (hk x hmem) rfl⟩
    rw [hse]
    have : (e ++ '=' :: stars) ++ R = e ++ '=' :: (stars ++ R) := by simp
    rw [this]
    exact safeAt_kwsuffix hk2 hlets hR
  · -- z1 = (k :: ks) ++ e and '=' :: stars = e ++ z2
    cases e with
    | nil =>
      rw [List.nil_append] at hse
      rw [← hse]
      have : ('=' :: stars) ++ R = [] ++ '=' :: (stars ++ R) := by simp
      rw [this]
      exact safeAt_kwsuffix hk2 (by simp) hR
    | cons eh et =>
      have heh : eh = '=' := by
        have := congrArg (fun l => l.head?) hse
        simpa using this.symm
      subst heh
      have hst : stars = et ++ z2 := by
        have := congrArg (fun l => l.tail) hse
        simpa using this
      -- z2 is a non-empty suffix of the stars: it starts with a star
      have hz2 : ∃ t, z2 = '*' :: t := by
        cases z2 with
        | nil => exact absurd rfl hne
        | cons zh zt =>
          refine ⟨zt, ?_⟩
          have hmem : zh ∈ stars := by
            rw [hst]
            exact List.mem_append_right _ (by simp)
          have h2 : zh = '*' ∨ zh = '*' ∨ zh = '*' := by
            simpa [stars] using hmem
          have : zh = '*' := by
            rcases h2 with h | h | h <;> exact h
          rw [this]
      obtain ⟨t, hz2⟩ := hz2
      rw [hz2, List.cons_append]
      intro v r hmatch
      rw [matchPat_none_head (star_ne_lc_letter (hk2 k2 (by simp)) rfl)] at hmatch
      cases hmatch

theorem matchPat_headWS {kw s v r : List Char} (hkw : kw ≠ [])
    (h : matchPat kw s = some (v, r)) : headWS r := by
  obtain ⟨_, _, _, _, _, _, _, _, _, hr⟩ := (matchPat_some_iff hkw).mp h
  exact hr

theorem matchPat_suffix {kw s v r : List Char} (hkw : kw ≠ [])
    (h : matchPat kw s = some (v, r)) : ∃ a, s = a ++ r := by
  obtain ⟨p, c, w, hs, _, _, _, _, _, _⟩ := (matchPat_some_iff hkw).mp h
  exact ⟨p ++ c :: (w ++ v), by rw [hs]; simp⟩

/-- The crux: a replace pass keeps the front of the string safe. Where the
first match was replaced, any new front match either carries the value `***`
or corresponds to a front match of the original string that the safety of
the original rules out or bounds. -/
theorem safeAt_replAll {k : Char} {ks : List Char} {k2 : Char} {ks2 : List Char}
    (hk : ∀ c ∈ k :: ks, lowerAZ c = true)
    (hk2 : ∀ c ∈ k2 :: ks2, lowerAZ c = true)
    {s : List Char} (hs : SafeAt (k2 :: ks2) s) :
    SafeAt (k2 :: ks2) (replAll k ks s) := by
  rcases replAll_decomp k ks s with hsame | ⟨pre, m, v0, r0, hsplit, hm, hout⟩
  · rw [hsame]
    exact hs
  · rw [hout]
    intro v r hmatch
    have hR : headWS (replAll k ks r0) :=
      replAll_headWS (hk k (by simp)) (matchPat_headWS (by simp) hm)
    rcases back_lemma hk hk2 hm hR hmatch with h1 | ⟨r2, h2⟩ | ⟨v2, r2, h3, x, hx, hxsep⟩
    · exact h1
    · exact hs v r2 (by rw [hsplit]; exact h2)
    · have hv2 : v2 = stars := hs v2 r2 (by rw [hsplit]; exact h3)
      subst hv2
      have : x = '*' := by
        have h2 : x = '*' ∨ x = '*' ∨ x = '*' := by simpa [stars] using hx
        rcases h2 with h | h | h <;> exact h
      subst this
      exact absurd hxsep (by decide)

/-- A replace pass establishes cleanliness for its own keyword. -/
theorem cleanL_replAll_self {k : Char} {ks : List Char}
    (hk : ∀ c ∈ k :: ks, lowerAZ c = true) :
    ∀ (n : Nat) (s : List Char), s.length ≤ n →
      CleanL (k :: ks) (replAll k ks s) := by
  intro n
  induction n with
  | zero =>
    intro s hl
    have : s = [] := by
      cases s with
      | nil => rfl
      | cons a b => simp at hl
    subst this
    exact cleanL_nil
  | succ n2 ih =>
    intro s hl
    cases s with
    | nil => exact cleanL_nil
    | cons c cs =>
      cases hmp : matchPat (k :: ks) (c :: cs) with
      | none =>
        rw [replAll_cons_none hmp]
        have hsafe : SafeAt (k :: ks) (c :: cs) := by
          intro v r h
          rw [hmp] at h
          cases h
        have h0 := safeAt_replAll hk hk hsafe
        rw [replAll_cons_none hmp] at h0
        rw [cleanL_cons]
        refine ⟨h0, ?_⟩
        exact ih cs (by simpa using Nat.le_of_succ_le_succ (by simpa using hl))
      | some p =>
        obtain ⟨v0, r0⟩ := p
        rw [replAll_cons_some hmp]
        have hR : headWS (replAll k ks r0) :=
          replAll_headWS (hk k (by simp)) (matchPat_headWS (by simp) hmp)
        have hlt := matchPat_rest_lt hmp
        have hrec : CleanL (k :: ks) (replAll k ks r0) := by
          refine ih r0 ?_
          simp only [List.length_cons] at hlt hl
          omega
        have := cleanL_Z hk hk hR hrec
        have heq : ((k :: ks) ++ '=' :: stars) ++ replAll k ks r0 =
            (k :: ks) ++ '=' :: stars ++ replAll k ks r0 := by simp
        rw [heq] at this
        exact this

/-- A replace pass preserves cleanliness for any keyword. -/
theorem cleanL_replAll_preserve {k : Char} {ks : List Char} {k2 : Char}
    {ks2 : List Char}
    (hk : ∀ c ∈ k :: ks, lowerAZ c = true)
    (hk2 : ∀ c ∈ k2 :: ks2, lowerAZ c = true) :
    ∀ (n : Nat) (s : List Char), s.length ≤ n →
      CleanL (k2 :: ks2) s → CleanL (k2 :: ks2) (replAll k ks s) := by
  intro n
  induction n with
  | zero =>
    intro s hl _
    have : s = [] := by
      cases s with
      | nil => rfl
      | cons a b => simp at hl
    subst this
    exact cleanL_nil
  | succ n2 ih =>
    intro s hl hcl
    cases s with
    | nil => exact cleanL_nil
    | cons c cs =>
      cases hmp : matchPat (k :: ks) (c :: cs) with
      | none =>
        rw [replAll_cons_none hmp]
        have h0 := safeAt_replAll hk hk2 ((cleanL_cons.mp hcl).1)
        rw [replAll_cons_none hmp] at h0
        rw [cleanL_cons]
        refine ⟨h0, ?_⟩
        refine ih cs ?_ (cleanL_cons.mp hcl).2
        simpa using Nat.le_of_succ_le_succ (by simpa using hl)
      | some p =>
        obtain ⟨v0, r0⟩ := p
        rw [replAll_cons_some hmp]
        have hR : headWS (replAll k ks r0) :=
          replAll_headWS (hk k (by simp)) (matchPat_headWS (by simp) hmp)
        have hlt := matchPat_rest_lt hmp
        obtain ⟨a, ha⟩ := matchPat_suffix (show (k :: ks) ≠ [] by simp) hmp
        have hclr : CleanL (k2 :: ks2) r0 := cleanL_of_suffix ha hcl
        have hrec : CleanL (k2 :: ks2) (replAll k ks r0) := by
          refine ih r0 ?_ hclr
          simp only [List.length_cons] at hlt hl
          omega
        have := cleanL_Z hk hk2 hR hrec
        have heq : ((k :: ks) ++ '=' :: stars) ++ replAll k ks r0 =
            (k :: ks) ++ '=' :: stars ++ replAll k ks r0 := by simp
        rw [heq] at this
        exact this

/-- The sanitizer's output is clean for all four keywords, at every
position. -/
theorem messageClean_sanitize (m : String) :
    MessageClean (sanitizeErrorMessage m) := by
  have hkp : ∀ c ∈ 'p' :: "assword".toList, lowerAZ c = true := by decide
  have hkt : ∀ c ∈ 't' :: "oken".toList, lowerAZ c = true := by decide
  have hkk : ∀ c ∈ 'k' :: "ey".toList, lowerAZ c = true := by decide
  have hks : ∀ c ∈ 's' :: "ecret".toList, lowerAZ c = true := by decide
  have hpw : ("password".toList : List Char) = 'p' :: "assword".toList := by decide
  have htk : ("token".toList : List Char) = 't' :: "oken".toList := by decide
  have hky : ("key".toList : List Char) = 'k' :: "ey".toList := by decide
  have hsc : ("secret".toList : List Char) = 's' :: "ecret".toList := by decide
  unfold sanitizeErrorMessage
  simp only
  have h1 : CleanL ('p' :: "assword".toList)
      (replAll 'p' "assword".toList m.toList) :=
    cleanL_replAll_self hkp _ _ (le_refl _)
  have h2p : CleanL ('p' :: "assword".toList)
      (replAll 't' "oken".toList (replAll 'p' "assword".toList m.toList)) :=
    cleanL_replAll_preserve hkt hkp _ _ (le_refl _) h1
  have h2 : CleanL ('t' :: "oken".toList)
      (replAll 't' "oken".toList (replAll 'p' "assword".toList m.toList)) :=
    cleanL_replAll_self hkt _ _ (le_refl _)
  have h3p : CleanL ('p' :: "assword".toList) (replAll 'k' "ey".toList
      (replAll 't' "oken".toList (replAll 'p' "assword".toList m.toList))) :=
    cleanL_replAll_preserve hkk hkp _ _ (le_refl _) h2p
  have h3t : CleanL ('t' :: "oken".toList) (replAll 'k' "ey".toList
      (replAll 't' "oken".toList (replAll 'p' "assword".toList m.toList))) :=
    cleanL_replAll_preserve hkk hkt _ _ (le_refl _) h2
  have h3 : CleanL ('k' :: "ey".toList) (replAll 'k' "ey".toList
      (replAll 't' "oken".toList (replAll 'p' "assword".toList m.toList))) :=
    cleanL_replAll_self hkk _ _ (le_refl _)
  refine ⟨?_, ?_, ?_, ?_⟩
  · rw [show (String.mk (replAll 's' "ecret".toList (replAll 'k' "ey".toList
      (replAll 't' "oken".toList (replAll 'p' "assword".toList
        m.toList))))).toList = replAll 's' "ecret".toList (replAll 'k' "ey".toList
      (replAll 't' "oken".toList (replAll 'p' "assword".toList m.toList)))
      from rfl, hpw]
    exact cleanL_replAll_preserve hks hkp _ _ (le_refl _) h3p
  · rw [show (String.mk (replAll 's' "ecret".toList (replAll 'k' "ey".toList
      (replAll 't' "oken".toList (replAll 'p' "assword".toList
        m.toList))))).toList = replAll 's' "ecret".toList (replAll 'k' "ey".toList
      (replAll 't' "oken".toList (replAll 'p' "assword".toList m.toList)))
      from rfl, htk]
    exact cleanL_replAll_preserve hks hkt _ _ (le_refl _) h3t
  · rw [show (String.mk (replAll 's' "ecret".toList (replAll 'k' "ey".toList
      (replAll 't' "oken".toList (replAll 'p' "assword".toList
        m.toList))))).toList = replAll 's' "ecret".toList (replAll 'k' "ey".toList
      (replAll 't' "oken".toList (replAll 'p' "assword".toList m.toList)))
      from rfl, hky]
    exact cleanL_replAll_preserve hks hkk _ _ (le_refl _) h3
  · rw [show (String.mk (replAll 's' "ecret".toList (replAll 'k' "ey".toList
      (replAll 't' "oken".toList (replAll 'p' "assword".toList
        m.toList))))).toList = replAll 's' "ecret".toList (replAll 'k' "ey".toList
      (replAll 't' "oken".toList (replAll 'p' "assword".toList m.toList)))
      from rfl, hsc]
    exact cleanL_replAll_self hks _ _ (le_refl _)

theorem messageClean_empty : MessageClean "" := by
  refine ⟨?_, ?_, ?_, ?_⟩ <;>
    (show CleanL _ ([] : List Char); exact cleanL_nil)

theorem entriesClean_sanitize : ∀ l, EntriesClean (sanitizeEntries l)
  | [] => by
    rw [sanitizeEntries]
    simp only [EntriesClean]
  | (key, .str s) :: rest => by
    rw [sanitizeEntries]
    simp only [EntriesClean]
    exact ⟨messageClean_sanitize s, entriesClean_sanitize rest⟩
  | (key, .obj f) :: rest => by
    rw [sanitizeEntries]
    simp only [EntriesClean]
    exact ⟨entriesClean_sanitize f, entriesClean_sanitize rest⟩
  | (key, .null) :: rest => by
    rw [sanitizeEntries]
    simp only [EntriesClean]
    exact entriesClean_sanitize rest
  | (key, .undefined) :: rest => by
    rw [sanitizeEntries]
    simp only [EntriesClean]
    exact entriesClean_sanitize rest
  | (key, .num n) :: rest => by
    rw [sanitizeEntries]
    simp only [EntriesClean]
    exact entriesClean_sanitize rest
  | (key, .bool b) :: rest => by
    rw [sanitizeEntries]
    simp only [EntriesClean]
    exact entriesClean_sanitize rest

theorem detailsClean_sanitize (d : JSVal) :
    DetailsClean (sanitizeErrorDetails d) := by
  cases d with
  | str s =>
    rw [sanitizeErrorDetails]
    by_cases hs : s = ""
    · rw [if_pos hs, hs]
      exact messageClean_empty
    · rw [if_neg hs]
      exact messageClean_sanitize s
  | obj fields =>
    rw [sanitizeErrorDetails]
    show EntriesClean (sanitizeEntries fields)
    exact entriesClean_sanitize fields
  | null => trivial
  | undefined => trivial
  | num n => trivial
  | bool b => trivial

/-- C9: createErrorResponse — and therefore handleError — returns responses
in which every occurrence of a password/token/key/secret pattern (keyword,
then = or :, then whitespace, then a value) in the message, and recursively
in every string field of the details, carries the value `***`: no secret
value survives a pattern occurrence verbatim. -/
theorem C9_error_responses_sanitized :
    (∀ (now : String) (code : ErrorCode) (message : String) (details : JSVal),
      MessageClean ((createErrorResponse now code message details).error.message) ∧
      DetailsClean ((createErrorResponse now code message details).error.details)) ∧
    (∀ (now : String) (e : Thrown),
      MessageClean ((handleError now e).error.message) ∧
      DetailsClean ((handleError now e).error.details)) := by
  have hbase : ∀ (now : String) (code : ErrorCode) (message : String)
      (details : JSVal),
      MessageClean ((createErrorResponse now code message details).error.message) ∧
      DetailsClean ((createErrorResponse now code message details).error.details) := by
    intro now code message details
    exact ⟨messageClean_sanitize message, detailsClean_sanitize details⟩
  refine ⟨hbase, fun now e => ?_⟩
  cases e with
  | appError code message details sc => exact hbase now code message details
  | jsError message => exact hbase now _ _ _
  | nonError v => exact hbase now _ _ _
end ArubaDB
